import Mathlib

/-!
Verification of the Reed-Solomon erasure-code core
(`src/vendor/reed-solomon-novelpoly/cxx/RSErasureCode.c`) over GF(2^16).

Shallow embedding conventions:

* A C array of `GFSymbol` (16-bit unsigned) is embedded as a single `Nat`
  holding one 32-bit field per cell: cell `i` occupies bits `[32*i, 32*i+32)`.
  Every value the C program stores is at most `0xFFFF`, so a 32-bit cell
  loses nothing; reads are `aget`, writes are `aset`.
* C `for` loops are embedded with `seqUp f s n a`, which runs
  `a := f i a` for `i = s, s+1, ..., s+n-1` in ascending order.  Loop trip
  counts are written out explicitly; for the power-of-two sizes used by
  every caller they agree with the C loop conditions.
* C integer arithmetic on `int`/`unsigned` never overflows in this code
  (all intermediate sums are below `2^31`), so it is embedded as plain
  `Nat` arithmetic.
-/

set_option maxRecDepth 10000
set_option maxHeartbeats 10000000

namespace RS

/-! ## Packed-array primitives -/

/-- Read 32-bit cell `i` of a packed array. -/
def aget (a i : Nat) : Nat := (a >>> (32 * i)) &&& 4294967295

/-- Write 32-bit cell `i` of a packed array (value `v` must be `< 2^32`). -/
def aset (a i v : Nat) : Nat := a ^^^ ((aget a i ^^^ v) <<< (32 * i))

/-- Ascending for-loop: `seqUp f s n a` performs `a := f i a` for
`i = s, ..., s+n-1`. -/
def seqUp {α : Type} (f : Nat → α → α) (s : Nat) : Nat → α → α
  | 0, a => a
  | n+1, a => seqUp f (s+1) n (f s a)

/-- `log2` for powers of two (fuel-driven, total). -/
def log2f : Nat → Nat → Nat
  | 0, _ => 0
  | fuel+1, n => if n ≤ 1 then 0 else log2f fuel (n / 2) + 1

def lg (n : Nat) : Nat := log2f 64 n

/-! ## Field constants (RSErasureCode.c lines 26-40) -/

def FIELD_BITS : Nat := 16
def FIELD_SIZE : Nat := 1 <<< FIELD_BITS
def MODULO : Nat := FIELD_SIZE - 1

/-- `GFSymbol mask = 0x2D` — the feedback mask of `x^16+x^5+x^3+x^2+1`. -/
def maskPoly : Nat := 0x2D

/-- `GFSymbol Base[FIELD_BITS]` — the Cantor basis. -/
def Base (i : Nat) : Nat :=
  [1, 44234, 15374, 5694, 50562, 60718, 37196, 16402,
   27800, 4312, 27250, 47360, 64952, 64308, 65336, 39198].getD i 0

/-! ## mulE (line 43-45)

`return a ? EXP_TABLE[(LOG_TABLE[a]+b &MODULO) + (LOG_TABLE[a]+b >>FIELD_BITS)] : 0;`

C precedence makes both subexpressions operate on `LOG_TABLE[a]+b`. -/

/-- The single-round fold reduction `(x & MODULO) + (x >> FIELD_BITS)`. -/
def foldM (x : Nat) : Nat := (x &&& MODULO) + (x >>> FIELD_BITS)

/-- `mulE`, parametrized by the global tables. -/
def mulE (logT expT : Nat) (a b : Nat) : Nat :=
  if a = 0 then 0 else aget expT (foldM (aget logT a + b))

/-! ## walsh (lines 47-58) -/

/-- One walsh butterfly on cells `i` and `i + dep`. -/
def wBfly (dep i : Nat) (w : Nat) : Nat :=
  let x := aget w i
  let y := aget w (i + dep)
  let tmp2 := x + MODULO - y
  let w1 := aset w i (foldM (x + y))
  aset w1 (i + dep) (foldM tmp2)

/-- The walsh stage with butterfly distance `dep = 2^t`. -/
def wStage (size dep : Nat) (w : Nat) : Nat :=
  seqUp (fun u w => seqUp (wBfly dep) ((dep <<< 1) * u) dep w)
    0 (size / (dep <<< 1)) w

/-- `walsh(data, size)`: in-place fast Walsh-Hadamard transform mod `MODULO`. -/
def walsh (w : Nat) (size : Nat) : Nat :=
  seqUp (fun t w => wStage size (1 <<< t) w) 0 (lg size) w

/-! ## formal_derivative (lines 60-73) -/

/-- `formal_derivative(cos, size)`. -/
def formal_derivative (cos : Nat) (size : Nat) : Nat :=
  seqUp (fun i c =>
      let leng := ((i ^^^ (i-1)) + 1) >>> 1
      seqUp (fun j c => aset c j (aget c j ^^^ aget c (j + leng))) (i - leng) leng c)
    1 (size - 1) cos

/-! ## IFLT and FLT (lines 75-103)

Both loops over `j` start at `j = depart_no` and step by `2*depart_no`
while `j < size`; for the power-of-two `size` used by all callers the trip
count is `size / (2*depart_no)` with `j = depart_no + 2*depart_no*u`. -/

/-- Inner XOR loop `for i in [j-depart, j): data[i+depart] ^= data[i]`. -/
def ifltXor (dep j : Nat) (d : Nat) : Nat :=
  seqUp (fun i d => aset d (i + dep) (aget d (i + dep) ^^^ aget d i)) (j - dep) dep d

/-- Skew-multiply loop `for i in [j-depart, j): data[i] ^= mulE(data[i+depart], skew)`,
executed only when the skew factor `skewVec[j+index-1]` is not the
`MODULO` sentinel. -/
def skewMul (logT expT skewT dep j idx : Nat) (d : Nat) : Nat :=
  if aget skewT (j + idx - 1) = MODULO then d
  else seqUp (fun i d =>
        aset d i (aget d i ^^^ mulE logT expT (aget d (i + dep)) (aget skewT (j + idx - 1))))
        (j - dep) dep d

/-- `IFLT(data, size, index)`: inverse transform in the novel basis. -/
def IFLT (logT expT skewT : Nat) (d : Nat) (size idx : Nat) : Nat :=
  seqUp (fun t d =>
      let dep := 1 <<< t
      seqUp (fun u d =>
          let j := dep + (dep <<< 1) * u
          skewMul logT expT skewT dep j idx (ifltXor dep j d))
        0 (size / (dep <<< 1)) d)
    0 (lg size) d

/-- `FLT(data, size, index)`: forward transform (stages in reverse order,
and within a block the skew-multiply precedes the XOR sweep). -/
def FLT (logT expT skewT : Nat) (d : Nat) (size idx : Nat) : Nat :=
  seqUp (fun t' d =>
      let dep := size >>> (t' + 1)
      seqUp (fun u d =>
          let j := dep + (dep <<< 1) * u
          ifltXor dep j (skewMul logT expT skewT dep j idx d))
        0 (size / (dep <<< 1)) d)
    0 (lg size) d

/-! ## init (lines 106-129): LOG_TABLE and EXP_TABLE -/

/-- One step of the LFSR `state` update inside `init()`:
if the top bit of the 16-bit state is set, mask it off, shift and xor the
feedback polynomial, else just shift. -/
def lfsrStep (st : Nat) : Nat :=
  if st >>> (FIELD_BITS - 1) ≠ 0 then ((st &&& 32767) <<< 1) ^^^ maskPoly
  else st <<< 1

/-- First loop of `init()`: walk the multiplicative group, recording
`EXP_TABLE[state] = i`; returns the final state and table. -/
def expPhase1 (st0 expT0 : Nat) : Nat × Nat :=
  seqUp (fun i p => (lfsrStep p.1, aset p.2 p.1 i)) 0 MODULO (st0, expT0)

/-- `init()` up to and including `EXP_TABLE[0] = MODULO`. -/
def expAfterPhase1 (expT0 : Nat) : Nat :=
  aset (expPhase1 1 expT0).2 0 MODULO

/-- Basis-combination loop of `init()`:
`LOG_TABLE[0] = 0` then `LOG_TABLE[j+2^i] = LOG_TABLE[j] ^ Base[i]`. -/
def logBasis (logT0 : Nat) : Nat :=
  seqUp (fun i l => seqUp (fun j l => aset l (j + (1 <<< i)) (aget l j ^^^ Base i)) 0 (1 <<< i) l)
    0 FIELD_BITS (aset logT0 0 0)

/-- Third loop: `LOG_TABLE[i] = EXP_TABLE[LOG_TABLE[i]]`. -/
def logRewrite (expT logT : Nat) : Nat :=
  seqUp (fun i l => aset l i (aget expT (aget l i))) 0 FIELD_SIZE logT

/-- Fourth loop: `EXP_TABLE[LOG_TABLE[i]] = i`, then `EXP_TABLE[MODULO] = EXP_TABLE[0]`. -/
def expScatter (logT expT : Nat) : Nat :=
  let e := seqUp (fun i e => aset e (aget logT i) i) 0 FIELD_SIZE expT
  aset e MODULO (aget e 0)

/-- The LOG_TABLE produced by `init()` from prior table contents. -/
def init_logT (logT0 expT0 : Nat) : Nat :=
  logRewrite (expAfterPhase1 expT0) (logBasis logT0)

/-- The EXP_TABLE produced by `init()` from prior table contents. -/
def init_expT (logT0 expT0 : Nat) : Nat :=
  expScatter (init_logT logT0 expT0) (expAfterPhase1 expT0)

/-- `init()` acting on initial table contents `(logT0, expT0)`;
returns `(LOG_TABLE, EXP_TABLE)`. -/
def init (logT0 expT0 : Nat) : Nat × Nat :=
  (init_logT logT0 expT0, init_expT logT0 expT0)

/-! ## init_dec (lines 132-167): skewVec, B, log_walsh -/

/-- Initial contents of the local `base` array: `base[i-1] = 1 << i`. -/
def base0 : Nat :=
  seqUp (fun i b => aset b (i - 1) (1 <<< i)) 1 (FIELD_BITS - 1) 0

/-- The inner two loops of the skew recursion for a given `m`:
for `i in [m, FIELD_BITS-1)`, `s = 2^(i+1)`, and
`for (j = 2^m - 1; j < s; j += 2^(m+1)) skewVec[j+s] = skewVec[j] ^ base[i]`.
The trip count of the `j` loop is `(s - (2^m - 1) + step - 1) / step`. -/
def skewRound (m : Nat) (base sk : Nat) : Nat :=
  seqUp (fun i sk =>
      let s := 1 <<< (i+1)
      let step := 1 <<< (m+1)
      seqUp (fun u sk =>
          let j := (1 <<< m) - 1 + step * u
          aset sk (j + s) (aget sk j ^^^ aget base i))
        0 ((s - ((1 <<< m) - 1) + step - 1) / step) sk)
    m (FIELD_BITS - 1 - m) sk

/-- `base[m]` update after the skew writes of round `m`:
`base[m] = MODULO - LOG_TABLE[mulE(base[m], LOG_TABLE[base[m]^1])]`. -/
def baseUpdate (logT expT : Nat) (m : Nat) (base : Nat) : Nat :=
  let bm := aget base m
  let b1 := aset base m (MODULO - aget logT (mulE logT expT bm (aget logT (bm ^^^ 1))))
  seqUp (fun i b =>
      aset b i (mulE logT expT (aget b i) ((aget logT (aget b i ^^^ 1) + aget b1 m) % MODULO)))
    (m+1) (FIELD_BITS - 1 - (m+1)) b1

/-- The full `m` loop of `init_dec`, producing the pre-log skew vector and
the final `base` array. -/
def skewLoop (logT expT : Nat) (sk0 : Nat) : Nat × Nat :=
  seqUp (fun m p =>
      let sk1 := aset p.2 ((1 <<< m) - 1) 0
      (baseUpdate logT expT m p.1, skewRound m p.1 sk1))
    0 (FIELD_BITS - 1) (base0, sk0)

/-- Final pass `for(i=0; i<FIELD_SIZE; i++) skewVec[i] = LOG_TABLE[skewVec[i]]`.
(The iteration at `i = FIELD_SIZE - 1` writes one past the end of the
65535-element C array; in the packed embedding it lands in cell 65535,
which no reader of `skewVec` ever accesses.) -/
def skewLogPass (logT sk : Nat) : Nat :=
  seqUp (fun i s => aset s i (aget logT (aget s i))) 0 FIELD_SIZE sk

/-- Post-`m`-loop adjustment of `base`:
`base[0] = MODULO - base[0]; base[i] = (MODULO - base[i] + base[i-1]) % MODULO`. -/
def baseNeg (base : Nat) : Nat :=
  seqUp (fun i b => aset b i ((MODULO - aget b i + aget b (i-1)) % MODULO))
    1 (FIELD_BITS - 2) (aset base 0 (MODULO - aget base 0))

/-- Build `B`: `B[0] = 0; for i: for j < 2^i: B[j+2^i] = (B[j] + base[i]) % MODULO`. -/
def bBuild (base : Nat) : Nat :=
  seqUp (fun i b => seqUp (fun j b => aset b (j + (1 <<< i)) ((aget b j + aget base i) % MODULO))
      0 (1 <<< i) b)
    0 (FIELD_BITS - 1) (aset 0 0 0)

/-- `log_walsh`: copy of `LOG_TABLE` with cell 0 cleared, Walsh-transformed.
The `memcpy` replaces all `FIELD_SIZE` cells of the destination. -/
def logWalshBuild (logT : Nat) : Nat :=
  walsh (aset (logT &&& (2 ^ (32 * FIELD_SIZE) - 1)) 0 0) FIELD_SIZE

/-- The global state of the library: the five process-wide tables. -/
structure Tables where
  logT : Nat
  expT : Nat
  skewT : Nat
  bT : Nat
  lwT : Nat

/-- The skew vector produced by `init_dec()` from the current tables. -/
def dec_skewT (t : Tables) : Nat :=
  skewLogPass t.logT (skewLoop t.logT t.expT t.skewT).2

/-- The `B` array produced by `init_dec()` from the current tables. -/
def dec_bT (t : Tables) : Nat :=
  bBuild (baseNeg (skewLoop t.logT t.expT t.skewT).1)

/-- `init_dec()` acting on the current tables. -/
def init_dec (t : Tables) : Tables :=
  { t with skewT := dec_skewT t, bT := dec_bT t, lwT := logWalshBuild t.logT }

/-- `init()` acting on the current tables. -/
def initT (t : Tables) : Tables :=
  { t with logT := init_logT t.logT t.expT, expT := init_expT t.logT t.expT }

/-- `setup()` = `init(); init_dec();` acting on the current tables. -/
def setup (t : Tables) : Tables := init_dec (initT t)

/-- The zero-initialized global state (C static storage). -/
def tables0 : Tables := ⟨0, 0, 0, 0, 0⟩

/-! ## encodeL (lines 175-183) -/

/-- `decode_init(erasure, log_walsh2, n)`: builds the locator evaluations.
`erasure` is the boolean mask (a predicate); `lw2` is the scratch array's
initial contents. -/
def decode_init (t : Tables) (erasure : Nat → Bool) (lw2 : Nat) (n : Nat) : Nat :=
  let a := seqUp (fun i w => aset w i (cond (erasure i) 1 0)) 0 n lw2
  let b := walsh a FIELD_SIZE
  let c := seqUp (fun i w => aset w i (aget w i * aget t.lwT i % MODULO)) 0 n b
  let d := walsh c FIELD_SIZE
  seqUp (fun i w => if erasure i then aset w i (MODULO - aget w i) else w) 0 n d

/-! ## decode_main (lines 211-240) -/

/-- `decode_main(codeword, k, erasure, log_walsh2, n)`. -/
def decode_main (t : Tables) (cw : Nat) (k : Nat) (erasure : Nat → Bool) (lw2 : Nat)
    (n : Nat) : Nat :=
  let a := seqUp (fun i c =>
      aset c i (cond (erasure i) 0 (mulE t.logT t.expT (aget c i) (aget lw2 i)))) 0 n cw
  let b := IFLT t.logT t.expT t.skewT a n 0
  let c := seqUp (fun u c =>
      let i := 2 * u
      let c1 := aset c i (mulE t.logT t.expT (aget c i) (MODULO - aget t.bT (i >>> 1)))
      aset c1 (i+1) (mulE t.logT t.expT (aget c1 (i+1)) (MODULO - aget t.bT (i >>> 1))))
    0 (n / 2) b
  let d := formal_derivative c n
  let e := seqUp (fun u c =>
      let i := 2 * u
      let c1 := aset c i (mulE t.logT t.expT (aget c i) (aget t.bT (i >>> 1)))
      aset c1 (i+1) (mulE t.logT t.expT (aget c1 (i+1)) (aget t.bT (i >>> 1))))
    0 (n / 2) d
  let f := FLT t.logT t.expT t.skewT e n 0
  seqUp (fun i c =>
      if erasure i then aset c i (mulE t.logT t.expT (aget c i) (aget lw2 i))
      else aset c i 0) 0 k f

/-! ## Checked variant of the final pass of init_dec (C array bounds)

`skewVec` is declared `GFSymbol skewVec[MODULO]` (2^16 - 1 cells);
the final pass of `init_dec` is
`for(i=0; i<FIELD_SIZE; i++) skewVec[i] = LOG_TABLE[skewVec[i]];`.
The checked embedding verifies the index against the array size before
each access and returns `none` on the out-of-bounds branch. -/

/-- One checked iteration of the final pass. -/
def skewLogChkStep (logT : Nat) (i : Nat) (s : Option Nat) : Option Nat :=
  match s with
  | none => none
  | some s => if i < MODULO then some (aset s i (aget logT (aget s i))) else none

/-- The checked final pass of `init_dec`. -/
def skewLogPassChecked (logT sk : Nat) : Option Nat :=
  seqUp (skewLogChkStep logT) 0 FIELD_SIZE (some sk)

/-! ## The concrete scenario of the spec (k = 4, n = 8, message [1,2,3,5]) -/

/-- XOR of the first `k` Cantor basis elements (the value the basis loop of
`init()` accumulates in `LOG_TABLE[2^k - 1]`). -/
def baseFold : Nat → Nat
  | 0 => 0
  | k+1 => baseFold k ^^^ Base k

/-- The first `n` stages of `walsh(w, FIELD_SIZE)` (all 16 at `n = 16`). -/
def walshStages (n : Nat) (w : Nat) : Nat :=
  seqUp (fun t w => wStage FIELD_SIZE (1 <<< t) w) 0 n w

/-- `d`-fold iteration of the LFSR state update of `init()`. -/
def lfsrIter : Nat → Nat → Nat
  | 0, st => st
  | d + 1, st => lfsrIter d (lfsrStep st)

/-- Branch-free form of the LFSR step, valid on 16-bit states: the feedback
mask is applied iff the top bit was set. -/
def lfsrStepB (st : Nat) : Nat :=
  ((st &&& 32767) <<< 1) ^^^ (maskPoly * (st >>> 15))

/-- One step of the orbit scan on a packed pair `state + min <<< 16`:
advance the state and lower the running minimum to it if smaller. -/
def scanStep (s : Nat) : Nat :=
  lfsrStepB (s &&& 65535)
    + (((s >>> 16) - ((s >>> 16) - lfsrStepB (s &&& 65535))) <<< 16)

/-- `2^k` scan steps, by binary splitting; the inner result is forced to a
numeral by `Nat.casesOn` before the outer half runs, so deep kernel
evaluation needs only `k` nested reductions of the scrutinee. -/
def scanP : Nat → Nat → Nat
  | 0, s => scanStep s
  | k + 1, s =>
    Nat.casesOn (motive := fun _ => Nat) (scanP k s)
      (scanP k 0)
      (fun m => scanP k (Nat.succ m))

/-- Flat reference iterator for the scan step. -/
def scanIter : Nat → Nat → Nat
  | 0, s => s
  | n + 1, s => scanIter n (scanStep s)

/-- `65534 = 2 + 4 + ... + 32768` scan steps. -/
def scan65534 (s : Nat) : Nat :=
  scanP 15 (scanP 14 (scanP 13 (scanP 12 (scanP 11 (scanP 10 (scanP 9 (scanP 8
    (scanP 7 (scanP 6 (scanP 5 (scanP 4 (scanP 3 (scanP 2 (scanP 1 s))))))))))))))

/-- XOR of the Cantor basis elements selected by the low `f` bits of `x`
(the value the basis loop of `init()` stores in `LOG_TABLE[x]`). -/
def basisXor : Nat → Nat → Nat
  | 0, _ => 0
  | f + 1, x => if x.testBit f then basisXor f x ^^^ Base f else basisXor f x

/-- Parity of the low `f` bits (an `F_2` linear functional on bit-vectors). -/
def parN : Nat → Nat → Nat
  | 0, _ => 0
  | f + 1, x => (x &&& 1) ^^^ parN f (x >>> 1)

/-- A dual family for the Cantor basis: `parN 16 (dual i &&& Base j)` is 1
iff `i = j` (checked by `decide`), witnessing linear independence. -/
def dual (i : Nat) : Nat :=
  [1, 33024, 30992, 44996, 35582, 62448, 6188, 8558,
   17524, 48858, 10166, 13184, 61904, 5388, 40830, 10240].getD i 0

/-- The XOR over the set bits `j < f` of `m` of `parN 16 (d &&& Base j)`
(what the pairing with `d` sees of a basis combination). -/
def dualSum (d : Nat) : Nat → Nat → Nat
  | 0, _ => 0
  | f + 1, m =>
    if m.testBit f then dualSum d f m ^^^ parN 16 (d &&& Base f) else dualSum d f m

/-! ## Cell lemmas -/

theorem aget_lt (a i : Nat) : aget a i < 2 ^ 32 := by
  have h : (4294967295 : Nat) < 2 ^ 32 := by norm_num
  exact Nat.and_lt_two_pow _ h

theorem testBit_aget (a i j : Nat) :
    (aget a i).testBit j = (decide (j < 32) && a.testBit (32 * i + j)) := by
  unfold aget
  rw [show (4294967295 : Nat) = 2 ^ 32 - 1 from by norm_num]
  rw [Nat.testBit_and, Nat.testBit_shiftRight, Nat.testBit_two_pow_sub_one, Bool.and_comm]

theorem testBit_of_lt_2pow32 {v : Nat} (hv : v < 2 ^ 32) {j : Nat} (hj : 32 ≤ j) :
    v.testBit j = false :=
  Nat.testBit_lt_two_pow (lt_of_lt_of_le hv (Nat.pow_le_pow_right (by norm_num) hj))

theorem aget_aset_self (a i : Nat) {v : Nat} (hv : v < 2 ^ 32) :
    aget (aset a i v) i = v := by
  apply Nat.eq_of_testBit_eq
  intro j
  rw [testBit_aget]
  by_cases hj : j < 32
  · rw [decide_eq_true hj, Bool.true_and]
    unfold aset
    rw [Nat.testBit_xor, Nat.testBit_shiftLeft,
      decide_eq_true (Nat.le_add_right (32 * i) j), Bool.true_and,
      Nat.add_sub_cancel_left, Nat.testBit_xor, testBit_aget,
      decide_eq_true hj, Bool.true_and]
    cases a.testBit (32 * i + j) <;> cases v.testBit j <;> simp
  · rw [decide_eq_false hj, Bool.false_and]
    exact (testBit_of_lt_2pow32 hv (by omega)).symm

theorem aget_aset_ne (a : Nat) {i j : Nat} (v : Nat) (hv : v < 2 ^ 32) (hij : i ≠ j) :
    aget (aset a i v) j = aget a j := by
  apply Nat.eq_of_testBit_eq
  intro k
  rw [testBit_aget, testBit_aget]
  by_cases hk : k < 32
  · rw [decide_eq_true hk, Bool.true_and, Bool.true_and]
    unfold aset
    rw [Nat.testBit_xor]
    have hx : (aget a i ^^^ v) < 2 ^ 32 := Nat.xor_lt_two_pow (aget_lt a i) hv
    have hsh : ((aget a i ^^^ v) <<< (32 * i)).testBit (32 * j + k) = false := by
      rw [Nat.testBit_shiftLeft]
      by_cases hle : 32 * i ≤ 32 * j + k
      · have h32 : 32 ≤ 32 * j + k - 32 * i := by omega
        rw [testBit_of_lt_2pow32 hx h32, Bool.and_false]
      · rw [decide_eq_false hle, Bool.false_and]
    rw [hsh, Bool.xor_false]
  · rw [decide_eq_false hk]
    simp

/-- Cells of the zero array. -/
theorem aget_zero (i : Nat) : aget 0 i = 0 := by
  unfold aget
  simp

/-! ## seqUp lemmas -/

theorem seqUp_zero {α : Type} (f : Nat → α → α) (s : Nat) (a : α) :
    seqUp f s 0 a = a := rfl

theorem seqUp_succ {α : Type} (f : Nat → α → α) (s n : Nat) (a : α) :
    seqUp f s (n+1) a = seqUp f (s+1) n (f s a) := rfl

theorem seqUp_add {α : Type} (f : Nat → α → α) (m : Nat) :
    ∀ (s n : Nat) (a : α), seqUp f s (m + n) a = seqUp f (s + m) n (seqUp f s m a) := by
  induction m with
  | zero => intro s n a; simp [seqUp_zero]
  | succ k ih =>
    intro s n a
    rw [show k + 1 + n = (k + n) + 1 from by omega, seqUp_succ, ih (s+1) n (f s a),
      show s + 1 + k = s + (k + 1) from by omega, ← seqUp_succ]

theorem seqUp_snoc {α : Type} (f : Nat → α → α) (s n : Nat) (a : α) :
    seqUp f s (n+1) a = f (s + n) (seqUp f s n a) := by
  rw [seqUp_add f n s 1 a]
  rfl

/-- An invariant preserved by every loop body is preserved by the loop. -/
theorem seqUp_invariant {α : Type} (P : α → Prop) (f : Nat → α → α)
    (hf : ∀ i a, P a → P (f i a)) :
    ∀ (s n : Nat) (a : α), P a → P (seqUp f s n a) := by
  intro s n
  induction n generalizing s with
  | zero => intro a h; exact h
  | succ k ih => intro a h; rw [seqUp_succ]; exact ih (s+1) (f s a) (hf s a h)

/-- A cell no loop body changes is unchanged by the loop. -/
theorem seqUp_cell_unchanged (f : Nat → Nat → Nat) (c : Nat)
    (hf : ∀ i a, aget (f i a) c = aget a c) :
    ∀ (s n : Nat) (a : Nat), aget (seqUp f s n a) c = aget a c := by
  intro s n
  induction n generalizing s with
  | zero => intro a; rfl
  | succ k ih => intro a; rw [seqUp_succ, ih (s+1), hf s a]

/-! ## foldM bounds -/

theorem moduloVal : MODULO = 65535 := rfl

theorem foldM_le {x : Nat} (hx : x ≤ 2 * MODULO) : foldM x ≤ MODULO := by
  rw [moduloVal] at hx ⊢
  show (x &&& MODULO) + (x >>> FIELD_BITS) ≤ 65535
  rw [moduloVal]
  have h1 : x &&& 65535 = x % 65536 := by
    rw [show (65535 : Nat) = 2 ^ 16 - 1 from by norm_num, Nat.and_pow_two_sub_one_eq_mod]
  have h2 : x >>> FIELD_BITS = x / 65536 := by
    rw [show FIELD_BITS = 16 from rfl, Nat.shiftRight_eq_div_pow]
  rw [h1, h2]
  omega

theorem foldM_lt_2pow32 {x : Nat} (hx : x ≤ 2 * MODULO) : foldM x < 2 ^ 32 :=
  lt_of_le_of_lt (foldM_le hx) (by rw [moduloVal]; norm_num)

/-! ## C4: range of walsh entries

The butterfly writes `foldM` of a sum (at most `2*MODULO`) and of
`x + MODULO - y` (also at most `2*MODULO`), so all cells stay `≤ MODULO`;
the value `MODULO` itself is attained (e.g. for the sum `1 + 65534`),
refuting the claim's strict bound `< MODULO`. -/

theorem wBfly_bound {w : Nat} (hw : ∀ i, aget w i ≤ MODULO) (dep i : Nat) :
    ∀ c, aget (wBfly dep i w) c ≤ MODULO := by
  intro c
  unfold wBfly
  have hM : (MODULO : Nat) < 2 ^ 32 := by rw [moduloVal]; norm_num
  have hsum : aget w i + aget w (i + dep) ≤ 2 * MODULO := by
    have := hw i; have := hw (i + dep); omega
  have htmp : aget w i + MODULO - aget w (i + dep) ≤ 2 * MODULO := by
    have := hw i; omega
  have hv1 : foldM (aget w i + aget w (i + dep)) < 2 ^ 32 := foldM_lt_2pow32 hsum
  have hv2 : foldM (aget w i + MODULO - aget w (i + dep)) < 2 ^ 32 := foldM_lt_2pow32 htmp
  by_cases hc2 : c = i + dep
  · subst hc2; rw [aget_aset_self _ _ hv2]; exact foldM_le htmp
  · rw [aget_aset_ne _ _ hv2 (fun h => hc2 h.symm)]
    by_cases hc1 : c = i
    · subst hc1; rw [aget_aset_self _ _ hv1]; exact foldM_le hsum
    · rw [aget_aset_ne _ _ hv1 (fun h => hc1 h.symm)]; exact hw c

theorem walsh_bound {w : Nat} (hw : ∀ i, aget w i ≤ MODULO) (size : Nat) :
    ∀ c, aget (walsh w size) c ≤ MODULO := by
  have main : ∀ x, (∀ i, aget x i ≤ MODULO) → ∀ i, aget (walsh x size) i ≤ MODULO := by
    intro x
    unfold walsh wStage
    intro hx
    have step := seqUp_invariant (fun y => ∀ i, aget y i ≤ MODULO)
      (fun t y => seqUp (fun u y =>
          seqUp (wBfly (1 <<< t)) (((1 <<< t) <<< 1) * u) (1 <<< t) y)
        0 (size / ((1 <<< t) <<< 1)) y)
    apply step
    · intro t y hy
      apply seqUp_invariant (fun y => ∀ i, aget y i ≤ MODULO)
      · intro u z hz
        apply seqUp_invariant (fun y => ∀ i, aget y i ≤ MODULO)
        · intro i z' hz'
          exact wBfly_bound hz' (1 <<< t) i
        · exact hz
      · exact hy
    · exact hx
  exact main w hw

/-- C4 counterexample input: the two-cell array `[1, 65534]`. -/
def c4data : Nat := 1 + 65534 * 2 ^ 32

/-- C4: the claim asserts that `walsh` keeps all entries strictly below
`MODULO = 2^16 - 1`; on the two-cell array `[1, 65534]` (entries in
`[0, MODULO)`) the first output cell is exactly `MODULO`, refuting it. -/
theorem C4_counterexample :
    (aget c4data 0 < MODULO ∧ aget c4data 1 < MODULO) ∧
      ¬ (aget (walsh c4data 2) 0 < MODULO) := by
  constructor
  · constructor <;> decide
  · decide

/-- C4 (amended): for any array whose entries lie in `[0, 2^16 - 1)` and any
power-of-two size, after `walsh(data, size)` every entry lies in
`[0, 2^16 - 1]` — at most `MODULO`, not strictly below it: each butterfly's
fold-reduced sum and difference is at most `MODULO`, and `MODULO` is attained. -/
theorem C4_amended (w size : Nat) (_hsize : ∃ t, size = 2 ^ t)
    (hw : ∀ i, aget w i < MODULO) : ∀ c, aget (walsh w size) c ≤ MODULO := by
  exact walsh_bound (fun i => Nat.le_of_lt (hw i)) size

/-- C4 witness: the amended bound evaluated on the zero array of size 2. -/
theorem C4_witness : aget (walsh 0 2) 0 ≤ MODULO :=
  C4_amended 0 2 ⟨1, rfl⟩ (fun i => by rw [aget_zero]; decide) 0

/-! ## Frame lemmas for index-directed write loops -/

/-- A loop whose counter stays above `c` and whose bodies leave cell `c`
alone whenever their index differs from `c` does not change cell `c`. -/
theorem seqUp_cell_above (f : Nat → Nat → Nat) (c : Nat)
    (hf : ∀ i a, i ≠ c → aget (f i a) c = aget a c) :
    ∀ (s n a : Nat), c < s → aget (seqUp f s n a) c = aget a c := by
  intro s n
  induction n generalizing s with
  | zero => intro a _; rfl
  | succ k ih =>
    intro a hs
    rw [seqUp_succ, ih (s+1) (f s a) (by omega), hf s a (by omega)]

/-- `mulE` returns either 0 or a table cell, hence a value below `2^32`. -/
theorem mulE_lt_2pow32 (l e a b : Nat) : mulE l e a b < 2 ^ 32 := by
  unfold mulE
  by_cases h : a = 0
  · rw [if_pos h]; norm_num
  · rw [if_neg h]; exact aget_lt _ _

/-- The final loop of `decode_main` zeroes every non-erased cell below `k`,
whatever array it starts from. -/
theorem decode_final_zero (t : Tables) (erasure : Nat → Bool) (lw2 : Nat)
    {c k : Nat} (hc : c < k) (he : erasure c = false) (x : Nat) :
    aget (seqUp (fun i cc =>
      if erasure i then aset cc i (mulE t.logT t.expT (aget cc i) (aget lw2 i))
      else aset cc i 0) 0 k x) c = 0 := by
  have hbody : ∀ i a, i ≠ c →
      aget ((fun i cc =>
        if erasure i then aset cc i (mulE t.logT t.expT (aget cc i) (aget lw2 i))
        else aset cc i 0) i a) c = aget a c := by
    intro i a hi
    by_cases hE : erasure i
    · simp only [hE, if_true]
      exact aget_aset_ne a _ (mulE_lt_2pow32 _ _ _ _) hi
    · simp only [hE, Bool.false_eq_true, if_false]
      exact aget_aset_ne a 0 (by norm_num) hi
  rw [show k = (c + 1) + (k - (c + 1)) from by omega, seqUp_add,
    seqUp_cell_above _ c hbody (0 + (c + 1)) _ _ (by omega), seqUp_snoc, Nat.zero_add]
  simp only [he, Bool.false_eq_true, if_false]
  exact aget_aset_self _ c (by norm_num)

/-- C8: after `decode_main(codeword, k, erasure, log_walsh2, n)`, every
position `i < k` at which the erasure mask is false holds the value 0. -/
theorem C8_nonerased_zeroed (t : Tables) (cw k : Nat) (erasure : Nat → Bool)
    (lw2 n : Nat) (_hkn : k ≤ n) (c : Nat) (hc : c < k) (he : erasure c = false) :
    aget (decode_main t cw k erasure lw2 n) c = 0 :=
  decode_final_zero t erasure lw2 hc he _

/-- C8 witness: `k = 1`, `n = 2`, all-false mask, zero codeword. -/
theorem C8_witness :
    aget (decode_main tables0 0 1 (fun _ => false) 0 2) 0 = 0 :=
  C8_nonerased_zeroed tables0 0 1 (fun _ => false) 0 2 (by omega) 0 (by omega) rfl

/-! ## C3: the final pass of init_dec steps out of bounds -/

/-- The checked body fails at the last iteration `i = 2^16 - 1`, since
`skewVec` has only `2^16 - 1` cells. -/
theorem skewLogChkStep_last (logT : Nat) (r : Option Nat) :
    skewLogChkStep logT 65535 r = none := by
  cases r with
  | none => rfl
  | some s =>
    show (if 65535 < MODULO then some (aset s 65535 (aget logT (aget s 65535))) else none)
      = none
    rw [if_neg (by rw [moduloVal]; omega)]

/-- C3: the claim that the final log-conversion pass of `init_dec` stays in
bounds is refuted: in the checked embedding the pass always takes the
out-of-bounds branch (at `i = FIELD_SIZE - 1 = 65535`, one past the end
of the `MODULO`-element `skewVec`), for every table and skew contents. -/
theorem C3_final_pass_oob (logT sk : Nat) : skewLogPassChecked logT sk = none := by
  unfold skewLogPassChecked
  rw [show FIELD_SIZE = 65535 + 1 from rfl, seqUp_snoc, Nat.zero_add,
    skewLogChkStep_last]

/-! ## C5: the fold-reduction versus the true modulus -/

/-- Exactness analysis of the single fold-reduction on sums below `2*MODULO`:
it equals the remainder mod `MODULO` except at multiples of `MODULO`,
where it yields `MODULO` itself instead of 0. -/
theorem foldM_mod {x : Nat} (hx : x ≤ 2 * MODULO) :
    foldM x = x % MODULO ∨ (foldM x = MODULO ∧ x % MODULO = 0) := by
  unfold foldM
  rw [moduloVal] at hx ⊢
  have h1 : x &&& 65535 = x % 65536 := by
    rw [show (65535 : Nat) = 2 ^ 16 - 1 from by norm_num, Nat.and_pow_two_sub_one_eq_mod]
  have h2 : x >>> FIELD_BITS = x / 65536 := by
    rw [show FIELD_BITS = 16 from rfl, Nat.shiftRight_eq_div_pow]
  rw [h1, h2]
  omega

/-- C5: the claim that the index used by `mulE` is `(LOG_TABLE[a]+b) mod MODULO`
"computed exactly by the single fold-reduction" fails at sums that are
multiples of `MODULO`: with tables where `LOG_TABLE[1] = 0`, the exponent
`b = 65535` drives the fold-reduction to index `65535`, not
`65535 % MODULO = 0`, and `mulE` reads cell `65535` (here 9), not the
claimed cell `0` (here 7). -/
theorem C5_counterexample :
    foldM (aget (0 : Nat) 1 + 65535) = MODULO ∧
    (aget (0 : Nat) 1 + 65535) % MODULO = 0 ∧
    mulE 0 (aset (aset 0 0 7) 65535 9) 1 65535 = 9 ∧
    aget (aset (aset 0 0 7) 65535 9) ((aget (0 : Nat) 1 + 65535) % MODULO) = 7 := by
  refine ⟨by decide, by decide, ?_, ?_⟩ <;> decide

/-- C5 (amended): `mulE(a, b) = 0` for `a = 0`, and otherwise
`mulE(a, b) = EXP_TABLE[(LOG_TABLE[a] + b) mod MODULO]` — the returned
*value* matches the modular index even though the fold-reduced index may
be `MODULO` instead of 0, because `init()` aliases
`EXP_TABLE[MODULO] = EXP_TABLE[0]`; this needs `b ≤ MODULO`, log-table
entries `≤ MODULO`, and that aliasing. -/
theorem C5_amended (l e a b : Nat) (hb : b ≤ MODULO) (hl : ∀ i, aget l i ≤ MODULO)
    (halias : aget e MODULO = aget e 0) :
    mulE l e 0 b = 0 ∧ (a ≠ 0 → mulE l e a b = aget e ((aget l a + b) % MODULO)) := by
  refine ⟨rfl, fun ha => ?_⟩
  unfold mulE
  rw [if_neg ha]
  have hx : aget l a + b ≤ 2 * MODULO := by have := hl a; omega
  rcases foldM_mod hx with h | ⟨h1, h2⟩
  · rw [h]
  · rw [h1, h2, halias]

/-- C5 witness: zero tables, `a = 1`, `b = 0`. -/
theorem C5_witness :
    mulE 0 0 0 0 = 0 ∧
      ((1 : Nat) ≠ 0 → mulE 0 0 1 0 = aget 0 ((aget 0 1 + 0) % MODULO)) :=
  C5_amended 0 0 1 0 (by decide) (fun i => by rw [aget_zero]; exact Nat.zero_le _)
    (by rw [aget_zero, aget_zero])

/-! ## C7: the concrete k = 4, n = 8 scenario -/

theorem seqUp_one {α : Type} (f : Nat → α → α) (s : Nat) (a : α) :
    seqUp f s 1 a = f s a := rfl

theorem seqUp_snoc_pos {α : Type} (f : Nat → α → α) (s n : Nat) (a : α) (hn : 0 < n) :
    seqUp f s n a = f (s + (n - 1)) (seqUp f s (n - 1) a) := by
  cases n with
  | zero => exact absurd hn (by omega)
  | succ k => rw [Nat.add_sub_cancel]; exact seqUp_snoc f s k a

/-- A loop whose indices all stay below `c` (and whose bodies write only
their own index) leaves cell `c` alone. -/
theorem seqUp_cell_below (f : Nat → Nat → Nat) (c : Nat)
    (hf : ∀ i a, i ≠ c → aget (f i a) c = aget a c) :
    ∀ (s n a : Nat), s + n ≤ c → aget (seqUp f s n a) c = aget a c := by
  intro s n
  induction n generalizing s with
  | zero => intro a _; rfl
  | succ k ih =>
    intro a h
    rw [seqUp_succ, ih (s+1) (f s a) (by omega), hf s a (by omega)]

/-- Invariant preservation where the loop body needs to know its index is
in the range actually traversed. -/
theorem seqUp_invariant_ranged {α : Type} (P : α → Prop) (f : Nat → α → α) :
    ∀ (s n : Nat), (∀ i, s ≤ i → i < s + n → ∀ a, P a → P (f i a)) →
      ∀ a, P a → P (seqUp f s n a) := by
  intro s n
  induction n generalizing s with
  | zero => intro _ a h; exact h
  | succ k ih =>
    intro hf a h
    rw [seqUp_succ]
    exact ih (s+1) (fun i hi1 hi2 => hf i (by omega) (by omega)) (f s a)
      (hf s (by omega) (by omega) a h)

/-- Two parallel runs of loops that preserve a relation stay related. -/
theorem seqUp_rel_ranged {α β : Type} (R : α → β → Prop) (f : Nat → α → α)
    (g : Nat → β → β) :
    ∀ (s n : Nat), (∀ i, s ≤ i → i < s + n → ∀ a b, R a b → R (f i a) (g i b)) →
      ∀ a b, R a b → R (seqUp f s n a) (seqUp g s n b) := by
  intro s n
  induction n generalizing s with
  | zero => intro _ a b h; exact h
  | succ k ih =>
    intro hfg a b h
    rw [seqUp_succ, seqUp_succ]
    exact ih (s+1) (fun i hi1 hi2 => hfg i (by omega) (by omega)) (f s a) (g s b)
      (hfg s (by omega) (by omega) a b h)

/-- Every Cantor basis element fits a 32-bit cell. -/
theorem Base_lt (i : Nat) : Base i < 2 ^ 32 := by
  by_cases h : i < 16
  · interval_cases i <;> decide
  · unfold Base
    rw [List.getD_eq_default]
    · norm_num
    · simp only [List.length_cons, List.length_nil]; omega

/-! ## C9: the second setup() changes skewVec[2^15 - 1]

The skew recursion of `init_dec` never writes index `32767 = 2^15 - 1`
(every written index is `2^m - 1` modulo `2^(m+1)` for some `m < 15`,
never `2^(m+1) - 1`), so the final log-conversion pass reads whatever was
there before: 0 on the first run (static storage), giving
`LOG_TABLE[0] = 65535`; on the second run it reads the 65535 left by the
first run and stores `LOG_TABLE[65535]`, which is provably not 65535. -/

/-- No write of the skew recursion's inner loops hits index `32767`. -/
theorem skew_write_ne (m i u : Nat) (hm : m < 15) (h1 : m ≤ i) (_h2 : i < 15) :
    1 <<< m - 1 + 1 <<< (m + 1) * u + 1 <<< (i + 1) ≠ 32767 := by
  rw [Nat.one_shiftLeft, Nat.one_shiftLeft, Nat.one_shiftLeft]
  intro h
  obtain ⟨d, hd⟩ : (2 : Nat) ^ (m + 1) ∣ 2 ^ (i + 1) := pow_dvd_pow 2 (by omega)
  obtain ⟨e, he⟩ : (2 : Nat) ^ (m + 1) ∣ 32768 := by
    rw [show (32768 : Nat) = 2 ^ 15 from by norm_num]
    exact pow_dvd_pow 2 (by omega)
  have hx : 0 < (2 : Nat) ^ m := Nat.two_pow_pos m
  have hM : (2 : Nat) ^ (m + 1) = 2 * 2 ^ m := by rw [pow_succ]; ring
  rw [hd, hM] at h
  rw [hM] at he
  have h2' : 2 ^ m + 2 * 2 ^ m * u + 2 * 2 ^ m * d = 32768 := by omega
  have hsum : 2 ^ m * (1 + 2 * u + 2 * d) = 2 ^ m * (2 * e) := by
    calc 2 ^ m * (1 + 2 * u + 2 * d)
        = 2 ^ m + 2 * 2 ^ m * u + 2 * 2 ^ m * d := by ring
      _ = 32768 := h2'
      _ = 2 * 2 ^ m * e := he
      _ = 2 ^ m * (2 * e) := by ring
  have := Nat.eq_of_mul_eq_mul_left hx hsum
  omega

/-- The inner skew recursion round leaves cell `32767` alone. -/
theorem skewRound_cell_32767 (m base sk : Nat) (hm : m < 15) :
    aget (skewRound m base sk) 32767 = aget sk 32767 := by
  unfold skewRound
  refine seqUp_invariant_ranged (fun z => aget z 32767 = aget sk 32767) _
    m (FIELD_BITS - 1 - m) ?_ sk rfl
  intro i h1 h2 a ha
  simp only []
  rw [seqUp_cell_unchanged _ 32767
    (fun u b => aget_aset_ne b _ (Nat.xor_lt_two_pow (aget_lt _ _) (aget_lt _ _))
      (skew_write_ne m i u hm h1 (by
        have hF : FIELD_BITS = 16 := rfl
        omega))) 0 _ a, ha]

/-- The whole `m`-loop of `init_dec` leaves skew cell `32767` alone. -/
theorem skewLoop_cell_32767 (l e sk0 : Nat) :
    aget (skewLoop l e sk0).2 32767 = aget sk0 32767 := by
  unfold skewLoop
  have H := seqUp_invariant_ranged (fun p : Nat × Nat => aget p.2 32767 = aget sk0 32767)
    (fun m p => (baseUpdate l e m p.1, skewRound m p.1 (aset p.2 (1 <<< m - 1) 0)))
    0 (FIELD_BITS - 1)
  refine H ?_ (base0, sk0) rfl
  intro m h1 h2 p hp
  show aget (skewRound m p.1 (aset p.2 (1 <<< m - 1) 0)) 32767 = aget sk0 32767
  rw [skewRound_cell_32767 _ _ _ (by
      have hF : FIELD_BITS = 16 := rfl
      omega),
    aget_aset_ne _ 0 (by norm_num) (by
      rw [Nat.one_shiftLeft]
      have h15 : (2 : Nat) ^ m < 2 ^ 15 := Nat.pow_lt_pow_right (by norm_num) (by
        have hF : FIELD_BITS = 16 := rfl
        omega)
      have h32 : (2 : Nat) ^ 15 = 32768 := by norm_num
      omega), hp]

/-- Cell `32767` of the converted skew vector is the log of whatever the
recursion left there. -/
theorem skewLogPass_cell_32767 (l sk : Nat) :
    aget (skewLogPass l sk) 32767 = aget l (aget sk 32767) := by
  have hf : ∀ i a, i ≠ 32767 →
      aget (aset a i (aget l (aget a i))) 32767 = aget a 32767 :=
    fun i a hi => aget_aset_ne a _ (aget_lt _ _) hi
  unfold skewLogPass
  rw [show FIELD_SIZE = 32768 + 32768 from rfl, seqUp_add,
    seqUp_cell_above _ 32767 hf (0 + 32768) 32768 _ (by omega),
    show (32768 : Nat) = 32767 + 1 from rfl, seqUp_snoc, Nat.zero_add]
  rw [aget_aset_self _ _ (aget_lt _ _),
    seqUp_cell_below _ 32767 hf 0 32767 sk (by omega)]

/-- `LOG_TABLE[0]` after the rewrite loop: the first iteration writes it,
no later one touches it. -/
theorem logRewrite_cell_0 (e l : Nat) :
    aget (logRewrite e l) 0 = aget e (aget l 0) := by
  have hf : ∀ i a, i ≠ 0 →
      aget (aset a i (aget e (aget a i))) 0 = aget a 0 :=
    fun i a hi => aget_aset_ne a _ (aget_lt _ _) hi
  unfold logRewrite
  rw [show FIELD_SIZE = 1 + 65535 from rfl, seqUp_add,
    seqUp_cell_above _ 0 hf (0 + 1) 65535 _ (by omega), seqUp_one]
  rw [aget_aset_self _ _ (aget_lt _ _)]

/-- `LOG_TABLE[65535]` after the rewrite loop: the last iteration writes it
from the basis value. -/
theorem logRewrite_cell_65535 (e l : Nat) :
    aget (logRewrite e l) 65535 = aget e (aget l 65535) := by
  have hf : ∀ i a, i ≠ 65535 →
      aget (aset a i (aget e (aget a i))) 65535 = aget a 65535 :=
    fun i a hi => aget_aset_ne a _ (aget_lt _ _) hi
  unfold logRewrite
  rw [show FIELD_SIZE = 65535 + 1 from rfl, seqUp_snoc, Nat.zero_add]
  rw [aget_aset_self _ _ (aget_lt _ _),
    seqUp_cell_below _ 65535 hf 0 65535 l (by omega)]

/-- The basis loop never touches cell 0 after clearing it. -/
theorem logBasis_cell_0 (l0 : Nat) : aget (logBasis l0) 0 = 0 := by
  unfold logBasis
  rw [seqUp_cell_unchanged _ 0 ?_ 0 FIELD_BITS _]
  · exact aget_aset_self l0 0 (by norm_num)
  · intro i a
    rw [seqUp_cell_unchanged _ 0
      (fun j b => aget_aset_ne b _ (Nat.xor_lt_two_pow (aget_lt _ _) (Base_lt i))
        (by have := Nat.two_pow_pos i; rw [Nat.one_shiftLeft]; omega)) 0 _ a]

/-- Last write of basis stage `i`: cell `2^(i+1) - 1` becomes
cell `2^i - 1` xored with `Base[i]`. -/
theorem logBasis_stage_top (i l : Nat) :
    aget (seqUp (fun j l => aset l (j + 1 <<< i) (aget l j ^^^ Base i)) 0 (1 <<< i) l)
      (1 <<< (i + 1) - 1) = aget l (1 <<< i - 1) ^^^ Base i := by
  rw [seqUp_snoc_pos _ _ _ _ (by rw [Nat.one_shiftLeft]; exact Nat.two_pow_pos i),
    Nat.zero_add]
  rw [show 1 <<< i - 1 + 1 <<< i = 1 <<< (i + 1) - 1 from by
      rw [Nat.one_shiftLeft, Nat.one_shiftLeft, pow_succ]
      have := Nat.two_pow_pos i
      omega,
    aget_aset_self _ _ (Nat.xor_lt_two_pow (aget_lt _ _) (Base_lt i)),
    seqUp_cell_unchanged _ (1 <<< i - 1)
      (fun j b => aget_aset_ne b _ (Nat.xor_lt_two_pow (aget_lt _ _) (Base_lt i))
        (by have := Nat.two_pow_pos i; rw [Nat.one_shiftLeft]; omega)) 0 _ l]

/-- After `k` basis stages, cell `2^k - 1` holds the XOR of the first `k`
basis elements, whatever the initial table was. -/
theorem logBasis_partial_top (l0 : Nat) : ∀ k,
    aget (seqUp (fun i l =>
        seqUp (fun j l => aset l (j + 1 <<< i) (aget l j ^^^ Base i)) 0 (1 <<< i) l)
      0 k (aset l0 0 0)) (1 <<< k - 1) = baseFold k := by
  intro k
  induction k with
  | zero => exact aget_aset_self l0 0 (by norm_num)
  | succ n ih =>
    rw [seqUp_snoc, Nat.zero_add]
    rw [logBasis_stage_top n _, ih]
    rfl

/-- The basis-combination value at the top cell: the XOR of all 16 Cantor
basis elements, `45201`, independent of the initial table contents. -/
theorem logBasis_cell_65535 (l0 : Nat) : aget (logBasis l0) 65535 = 45201 := by
  unfold logBasis
  rw [show FIELD_BITS = 16 from rfl, show (65535 : Nat) = 1 <<< 16 - 1 from rfl,
    logBasis_partial_top l0 16]
  decide

/-- `EXP_TABLE[0] = MODULO` right after the first phase of `init()`. -/
theorem expAfterPhase1_cell_0 (e0 : Nat) : aget (expAfterPhase1 e0) 0 = MODULO := by
  unfold expAfterPhase1
  exact aget_aset_self _ 0 (by rw [moduloVal]; norm_num)

/-- Any cell of the first-phase exp table is either a loop counter value
(`≤ 65534`) or its initial contents. -/
theorem expPhase1_cell_cases (st0 e0 c : Nat) :
    aget (expPhase1 st0 e0).2 c ≤ 65534 ∨ aget (expPhase1 st0 e0).2 c = aget e0 c := by
  unfold expPhase1
  have H := seqUp_invariant_ranged
    (fun p : Nat × Nat => aget p.2 c ≤ 65534 ∨ aget p.2 c = aget e0 c)
    (fun i p => (lfsrStep p.1, aset p.2 p.1 i)) 0 MODULO
  refine H ?_ (st0, e0) (Or.inr rfl)
  intro i h1 h2 p hp
  have hi : i ≤ 65534 := by
    have hM := moduloVal
    omega
  have hi32 : i < 2 ^ 32 := lt_of_le_of_lt hi (by norm_num)
  show aget (aset p.2 p.1 i) c ≤ 65534 ∨ aget (aset p.2 p.1 i) c = aget e0 c
  by_cases hc : p.1 = c
  · left
    rw [hc, aget_aset_self _ _ hi32]
    exact hi
  · rw [aget_aset_ne _ _ hi32 hc]
    exact hp

/-- Two first-phase runs from the same seed state either last-wrote a cell
identically or both left it at its initial contents. -/
theorem expPhase1_parallel (e0 e0' c : Nat) :
    aget (expPhase1 1 e0).2 c = aget (expPhase1 1 e0').2 c ∨
      (aget (expPhase1 1 e0).2 c = aget e0 c ∧
        aget (expPhase1 1 e0').2 c = aget e0' c) := by
  unfold expPhase1
  have H := seqUp_rel_ranged
    (fun p q : Nat × Nat => p.1 = q.1 ∧
      (aget p.2 c = aget q.2 c ∨ (aget p.2 c = aget e0 c ∧ aget q.2 c = aget e0' c)))
    (fun i p => (lfsrStep p.1, aset p.2 p.1 i))
    (fun i p => (lfsrStep p.1, aset p.2 p.1 i)) 0 MODULO
  have hbody : ∀ i, 0 ≤ i → i < 0 + MODULO → ∀ p q : Nat × Nat,
      (p.1 = q.1 ∧
        (aget p.2 c = aget q.2 c ∨ (aget p.2 c = aget e0 c ∧ aget q.2 c = aget e0' c))) →
      ((lfsrStep p.1, aset p.2 p.1 i).1 = (lfsrStep q.1, aset q.2 q.1 i).1 ∧
        (aget (lfsrStep p.1, aset p.2 p.1 i).2 c = aget (lfsrStep q.1, aset q.2 q.1 i).2 c ∨
          (aget (lfsrStep p.1, aset p.2 p.1 i).2 c = aget e0 c ∧
            aget (lfsrStep q.1, aset q.2 q.1 i).2 c = aget e0' c))) := by
    intro i h1 h2 p q hpq
    obtain ⟨hst, htab⟩ := hpq
    have hi32 : i < 2 ^ 32 := by
      have hM := moduloVal
      have hi : i < 65535 := by omega
      omega
    show lfsrStep p.1 = lfsrStep q.1 ∧
      (aget (aset p.2 p.1 i) c = aget (aset q.2 q.1 i) c ∨
        (aget (aset p.2 p.1 i) c = aget e0 c ∧ aget (aset q.2 q.1 i) c = aget e0' c))
    refine ⟨by rw [hst], ?_⟩
    by_cases hc : p.1 = c
    · left
      rw [hc] at hst
      rw [hc, ← hst, aget_aset_self _ _ hi32, aget_aset_self _ _ hi32]
    · have hc' : q.1 ≠ c := by rw [← hst]; exact hc
      rw [aget_aset_ne _ _ hi32 hc, aget_aset_ne _ _ hi32 hc']
      exact htab
  exact (H hbody (1, e0) (1, e0') ⟨rfl, Or.inr ⟨rfl, rfl⟩⟩).2

/-- A cell of the scattered exp table, away from `MODULO` and from the last
scatter target, is either a counter value `≤ 65534` or its prior contents. -/
theorem expScatter_cell_cases (l e c : Nat) (hc : c ≠ MODULO)
    (hlast : aget l 65535 ≠ c) :
    aget (expScatter l e) c ≤ 65534 ∨ aget (expScatter l e) c = aget e c := by
  unfold expScatter
  simp only []
  rw [aget_aset_ne _ _ (aget_lt _ _) (Ne.symm hc),
    show FIELD_SIZE = 65535 + 1 from rfl, seqUp_snoc, Nat.zero_add]
  rw [aget_aset_ne _ _ (by norm_num : (65535 : Nat) < 2 ^ 32) hlast]
  have H := seqUp_invariant_ranged (fun z => aget z c ≤ 65534 ∨ aget z c = aget e c)
    (fun i e => aset e (aget l i) i) 0 65535
  refine H ?_ e (Or.inr rfl)
  intro i hi1 hi2 a ha
  have hi32 : i < 2 ^ 32 := by
    have hi : i < 65535 := by omega
    omega
  show aget (aset a (aget l i) i) c ≤ 65534 ∨ aget (aset a (aget l i) i) c = aget e c
  by_cases hw : aget l i = c
  · left
    rw [hw, aget_aset_self _ _ hi32]
    omega
  · rw [aget_aset_ne _ _ hi32 hw]
    exact ha

/-! Projection equations for the table-updating wrappers.  Each is proved
by one syntactic unfolding step followed by a constructor-projection
rewrite, so neither the elaborator nor the kernel ever has to compare a
whole table state against a variable (which would force it to normalize
the 2^16-iteration loops). -/

theorem logT_mk (a b c d e : Nat) : (Tables.mk a b c d e).logT = a := rfl

theorem expT_mk (a b c d e : Nat) : (Tables.mk a b c d e).expT = b := rfl

theorem skewT_mk (a b c d e : Nat) : (Tables.mk a b c d e).skewT = c := rfl

theorem initT_logT (t : Tables) : (initT t).logT = init_logT t.logT t.expT := by
  unfold initT
  rw [logT_mk]

theorem initT_expT (t : Tables) : (initT t).expT = init_expT t.logT t.expT := by
  unfold initT
  rw [expT_mk]

theorem initT_skewT (t : Tables) : (initT t).skewT = t.skewT := by
  unfold initT
  rw [skewT_mk]

theorem setup_skewT (t : Tables) : (setup t).skewT = dec_skewT (initT t) := by
  unfold setup init_dec
  rw [skewT_mk]

theorem setup_expT (t : Tables) : (setup t).expT = (initT t).expT := by
  unfold setup init_dec
  rw [expT_mk]

theorem tables0_logT : tables0.logT = 0 := by
  unfold tables0
  rw [logT_mk]

theorem tables0_expT : tables0.expT = 0 := by
  unfold tables0
  rw [expT_mk]

theorem tables0_skewT : tables0.skewT = 0 := by
  unfold tables0
  rw [skewT_mk]

/-- Skew cell `32767` after any `setup` call: the log of whatever the skew
vector previously held there. -/
theorem setup_skew_32767 (t : Tables) :
    aget (setup t).skewT 32767 = aget (initT t).logT (aget t.skewT 32767) := by
  rw [setup_skewT]
  unfold dec_skewT
  rw [skewLogPass_cell_32767, skewLoop_cell_32767, initT_skewT, initT_logT]

/-- `LOG_TABLE[0] = MODULO` after `init()`, whatever the prior tables. -/
theorem initT_log_0 (t : Tables) : aget (initT t).logT 0 = MODULO := by
  rw [initT_logT]
  unfold init_logT
  rw [logRewrite_cell_0, logBasis_cell_0, expAfterPhase1_cell_0]

/-- After the first `setup()` (from the zeroed static tables),
`skewVec[32767] = LOG_TABLE[0] = MODULO`. -/
theorem setup1_skew_32767 : aget (setup tables0).skewT 32767 = MODULO := by
  rw [setup_skew_32767, tables0_skewT, aget_zero, initT_log_0]

/-- `LOG_TABLE[65535]` after the second `init()` is not `65535`: it is a
first-phase counter value (`≤ 65534`) or derived from contents that are. -/
theorem secondInit_log_MODULO :
    aget (initT (setup tables0)).logT MODULO ≠ MODULO := by
  rw [moduloVal, initT_logT]
  unfold init_logT
  rw [logRewrite_cell_65535, logBasis_cell_65535]
  unfold expAfterPhase1
  rw [aget_aset_ne _ _ (by rw [moduloVal]; norm_num) (by decide : (0 : Nat) ≠ 45201)]
  rcases expPhase1_parallel ((setup tables0).expT) 0 45201 with heq | ⟨hB, hA⟩
  · rw [heq]
    rcases expPhase1_cell_cases 1 0 45201 with hle | hinit
    · omega
    · rw [hinit, aget_zero]
      omega
  · rw [hB]
    rw [aget_zero] at hA
    rw [setup_expT, initT_expT, tables0_logT, tables0_expT]
    unfold init_expT
    have hlast : aget (init_logT 0 0) 65535 ≠ 45201 := by
      unfold init_logT
      rw [logRewrite_cell_65535, logBasis_cell_65535]
      unfold expAfterPhase1
      rw [aget_aset_ne _ _ (by rw [moduloVal]; norm_num) (by decide : (0 : Nat) ≠ 45201),
        hA]
      omega
    rcases expScatter_cell_cases (init_logT 0 0) (expAfterPhase1 0) 45201
        (by rw [moduloVal]; omega) hlast with h1 | h1
    · omega
    · rw [h1]
      unfold expAfterPhase1
      rw [aget_aset_ne _ _ (by rw [moduloVal]; norm_num) (by decide : (0 : Nat) ≠ 45201),
        hA]
      omega

/-- C9: `setup()` is not idempotent. Starting from the zeroed static tables,
the first call leaves `skewVec[32767] = LOG_TABLE[0] = 65535` (the skew
recursion never writes index `2^15 - 1`, so the final log pass reads the
stale 0), while the second call rewrites that cell to `LOG_TABLE[65535]`,
which is not 65535 — so the table contents differ between calls. -/
theorem C9_not_idempotent :
    aget (setup (setup tables0)).skewT 32767 ≠ aget (setup tables0).skewT 32767 := by
  rw [setup_skew_32767 (setup tables0), setup1_skew_32767]
  exact secondInit_log_MODULO

/-! ## C2: IFLT and FLT are mutually inverse

Each transform stage sweeps disjoint blocks `[j-dep, j+dep)`; within a
block the XOR sweep and the skew-multiply sweep are involutions (each
cell is XORed with a value read only from cells the sweep never writes),
an IFLT block is `M ∘ X` while an FLT block is `X ∘ M`, and FLT runs the
stages of IFLT in reverse order — so the composites telescope to the
identity, for any tables. -/

/-- Two packed arrays with equal cells are equal. -/
theorem eq_of_aget_eq {x y : Nat} (h : ∀ c, aget x c = aget y c) : x = y := by
  apply Nat.eq_of_testBit_eq
  intro p
  have h2 : (aget x (p / 32)).testBit (p % 32) = (aget y (p / 32)).testBit (p % 32) :=
    congrArg (fun v => v.testBit (p % 32)) (h (p / 32))
  rw [testBit_aget, testBit_aget] at h2
  have hp : p % 32 < 32 := Nat.mod_lt _ (by norm_num)
  rw [decide_eq_true hp, Bool.true_and, Bool.true_and, Nat.div_add_mod] at h2
  exact h2

theorem xor_cancel_right (a b : Nat) : a ^^^ b ^^^ b = a := by
  rw [Nat.xor_assoc, Nat.xor_self, Nat.xor_zero]

/-- Ranged frame lemma: a loop whose in-range bodies leave cell `c` alone
leaves cell `c` alone. -/
theorem seqUp_cell_unchanged_ranged (f : Nat → Nat → Nat) (c : Nat) :
    ∀ (s n : Nat), (∀ i a, s ≤ i → i < s + n → aget (f i a) c = aget a c) →
      ∀ a, aget (seqUp f s n a) c = aget a c := by
  intro s n
  induction n generalizing s with
  | zero => intro _ a; rfl
  | succ k ih =>
    intro hf a
    rw [seqUp_succ, ih (s+1) (fun i a h1 h2 => hf i a (by omega) (by omega)) (f s a),
      hf s a (by omega) (by omega)]

/-! ### Generic XOR sweeps

A sweep writes `d[w i] ^= v i d` for `i = s, ..., s+n-1`, where the
values `v` are read only from cells the sweep never writes. -/

/-- The sweep does not change what the `v`-reads see. -/
theorem sweep_v_stable (w : Nat → Nat) (v : Nat → Nat → Nat) (s n : Nat)
    (hv32 : ∀ i d, v i d < 2 ^ 32)
    (hst : ∀ i i' d x, s ≤ i → i < s + n → s ≤ i' → i' < s + n → x < 2 ^ 32 →
      v i (aset d (w i') x) = v i d) :
    ∀ (i s' n' : Nat), s ≤ i → i < s + n → s ≤ s' → s' + n' ≤ s + n → ∀ d,
      v i (seqUp (fun i d => aset d (w i) (aget d (w i) ^^^ v i d)) s' n' d) = v i d := by
  intro i s' n'
  induction n' generalizing s' with
  | zero => intro _ _ _ _ d; rfl
  | succ m ihm =>
    intro hi1 hi2 h1 h2 d
    rw [seqUp_succ, ihm (s'+1) hi1 hi2 (by omega) (by omega)]
    show v i (aset d (w s') (aget d (w s') ^^^ v s' d)) = v i d
    exact hst i s' d _ hi1 hi2 (by omega) (by omega)
      (Nat.xor_lt_two_pow (aget_lt _ _) (hv32 s' d))

/-- Cells the sweep never writes are unchanged. -/
theorem sweep_frame (w : Nat → Nat) (v : Nat → Nat → Nat) (s n : Nat)
    (hv32 : ∀ i d, v i d < 2 ^ 32) (c : Nat)
    (hc : ∀ i, s ≤ i → i < s + n → w i ≠ c) (d : Nat) :
    aget (seqUp (fun i d => aset d (w i) (aget d (w i) ^^^ v i d)) s n d) c = aget d c :=
  seqUp_cell_unchanged_ranged _ c s n
    (fun i a h1 h2 =>
      aget_aset_ne a _ (Nat.xor_lt_two_pow (aget_lt _ _) (hv32 i a)) (hc i h1 h2)) d

/-- Two runs of a sweep on arrays that agree on a region `S` containing
all written cells, with values that only depend on `S`, agree on `S`. -/
theorem sweep_agree (w : Nat → Nat) (v : Nat → Nat → Nat) (S : Nat → Prop) (s n : Nat)
    (hv32 : ∀ i d, v i d < 2 ^ 32)
    (hwS : ∀ i, s ≤ i → i < s + n → S (w i))
    (hvS : ∀ i d d', s ≤ i → i < s + n → (∀ c, S c → aget d c = aget d' c) →
      v i d = v i d') :
    ∀ d d', (∀ c, S c → aget d c = aget d' c) →
      ∀ c, S c → aget (seqUp (fun i d => aset d (w i) (aget d (w i) ^^^ v i d)) s n d) c
        = aget (seqUp (fun i d => aset d (w i) (aget d (w i) ^^^ v i d)) s n d') c := by
  intro d d' h
  have H := seqUp_rel_ranged (fun d d' => ∀ c, S c → aget d c = aget d' c)
    (fun i d => aset d (w i) (aget d (w i) ^^^ v i d))
    (fun i d => aset d (w i) (aget d (w i) ^^^ v i d)) s n
  refine H ?_ d d' h
  intro i h1 h2 a b hab c hc
  show aget (aset a (w i) (aget a (w i) ^^^ v i a)) c
    = aget (aset b (w i) (aget b (w i) ^^^ v i b)) c
  have hva : aget a (w i) ^^^ v i a < 2 ^ 32 :=
    Nat.xor_lt_two_pow (aget_lt _ _) (hv32 _ _)
  have hvb : aget b (w i) ^^^ v i b < 2 ^ 32 :=
    Nat.xor_lt_two_pow (aget_lt _ _) (hv32 _ _)
  by_cases hcw : w i = c
  · rw [← hcw, aget_aset_self _ _ hva, aget_aset_self _ _ hvb,
      hab (w i) (hwS i h1 h2), hvS i a b h1 h2 hab]
  · rw [aget_aset_ne _ _ hva hcw, aget_aset_ne _ _ hvb hcw]
    exact hab c hc

/-- Written cells receive exactly one XOR of the original value. -/
theorem sweep_cell (w : Nat → Nat) (v : Nat → Nat → Nat) (s n : Nat)
    (hv32 : ∀ i d, v i d < 2 ^ 32)
    (hst : ∀ i i' d x, s ≤ i → i < s + n → s ≤ i' → i' < s + n → x < 2 ^ 32 →
      v i (aset d (w i') x) = v i d)
    (hwinj : ∀ i i', w i = w i' → i = i') :
    ∀ (i d : Nat), s ≤ i → i < s + n →
      aget (seqUp (fun i d => aset d (w i) (aget d (w i) ^^^ v i d)) s n d) (w i)
        = aget d (w i) ^^^ v i d := by
  intro i d h1 h2
  rw [show n = (i - s) + ((s + n - (i + 1)) + 1) from by omega, seqUp_add,
    show s + (i - s) = i from by omega, seqUp_succ]
  rw [sweep_frame w v (i+1) _ hv32 (w i)
    (fun i'' h1' h2' he => by have := hwinj _ _ he; omega) _]
  show aget (aset (seqUp (fun i d => aset d (w i) (aget d (w i) ^^^ v i d)) s (i - s) d)
      (w i)
      (aget (seqUp (fun i d => aset d (w i) (aget d (w i) ^^^ v i d)) s (i - s) d) (w i) ^^^
        v i (seqUp (fun i d => aset d (w i) (aget d (w i) ^^^ v i d)) s (i - s) d)))
    (w i) = aget d (w i) ^^^ v i d
  rw [aget_aset_self _ _ (Nat.xor_lt_two_pow (aget_lt _ _) (hv32 _ _)),
    sweep_frame w v s (i - s) hv32 (w i)
      (fun i'' h1' h2' he => by have := hwinj _ _ he; omega) d,
    sweep_v_stable w v s n hv32 hst i s (i - s) h1 h2 (by omega) (by omega) d]

/-- Running the same sweep twice restores the array. -/
theorem sweep_invol (w : Nat → Nat) (v : Nat → Nat → Nat) (s n : Nat)
    (hv32 : ∀ i d, v i d < 2 ^ 32)
    (hst : ∀ i i' d x, s ≤ i → i < s + n → s ≤ i' → i' < s + n → x < 2 ^ 32 →
      v i (aset d (w i') x) = v i d)
    (hwinj : ∀ i i', w i = w i' → i = i') (d : Nat) :
    seqUp (fun i d => aset d (w i) (aget d (w i) ^^^ v i d)) s n
      (seqUp (fun i d => aset d (w i) (aget d (w i) ^^^ v i d)) s n d) = d := by
  apply eq_of_aget_eq
  intro c
  by_cases hc : ∃ i, s ≤ i ∧ i < s + n ∧ w i = c
  · obtain ⟨i, h1, h2, hw⟩ := hc
    subst hw
    rw [sweep_cell w v s n hv32 hst hwinj i _ h1 h2,
      sweep_cell w v s n hv32 hst hwinj i d h1 h2,
      sweep_v_stable w v s n hv32 hst i s n h1 h2 (by omega) (by omega) d,
      xor_cancel_right]
  · push_neg at hc
    rw [sweep_frame w v s n hv32 c (fun i ha hb => hc i ha hb) _,
      sweep_frame w v s n hv32 c (fun i ha hb => hc i ha hb) d]

/-! ### The two sweeps of a transform block -/

theorem ifltXor_frame (dep j d c : Nat) (hdep : 0 < dep) (hj : dep ≤ j)
    (hc : ¬ (j - dep ≤ c ∧ c < j + dep)) :
    aget (ifltXor dep j d) c = aget d c := by
  unfold ifltXor
  exact sweep_frame (fun i => i + dep) (fun i d => aget d i) (j - dep) dep
    (fun i d => aget_lt d i) c (fun i h1 h2 => by show i + dep ≠ c; omega) d

theorem skewMul_frame (L E SK dep j idx d c : Nat) (hdep : 0 < dep) (hj : dep ≤ j)
    (hc : ¬ (j - dep ≤ c ∧ c < j + dep)) :
    aget (skewMul L E SK dep j idx d) c = aget d c := by
  unfold skewMul
  by_cases hs : aget SK (j + idx - 1) = MODULO
  · rw [if_pos hs]
  · rw [if_neg hs]
    exact sweep_frame (fun i => i)
      (fun i d => mulE L E (aget d (i + dep)) (aget SK (j + idx - 1))) (j - dep) dep
      (fun i d => mulE_lt_2pow32 _ _ _ _) c (fun i h1 h2 => by show i ≠ c; omega) d

theorem ifltXor_agree (dep j : Nat) (hdep : 0 < dep) (hj : dep ≤ j) (d d' : Nat)
    (h : ∀ c, j - dep ≤ c ∧ c < j + dep → aget d c = aget d' c) :
    ∀ c, j - dep ≤ c ∧ c < j + dep →
      aget (ifltXor dep j d) c = aget (ifltXor dep j d') c := by
  unfold ifltXor
  exact sweep_agree (fun i => i + dep) (fun i d => aget d i)
    (fun c => j - dep ≤ c ∧ c < j + dep) (j - dep) dep
    (fun i d => aget_lt d i)
    (fun i h1 h2 => by show j - dep ≤ i + dep ∧ i + dep < j + dep; constructor <;> omega)
    (fun i d d' h1 h2 hdd => hdd i (by
      show j - dep ≤ i ∧ i < j + dep
      constructor <;> omega))
    d d' h

theorem skewMul_agree (L E SK dep j idx : Nat) (hdep : 0 < dep) (hj : dep ≤ j) (d d' : Nat)
    (h : ∀ c, j - dep ≤ c ∧ c < j + dep → aget d c = aget d' c) :
    ∀ c, j - dep ≤ c ∧ c < j + dep →
      aget (skewMul L E SK dep j idx d) c = aget (skewMul L E SK dep j idx d') c := by
  unfold skewMul
  by_cases hs : aget SK (j + idx - 1) = MODULO
  · rw [if_pos hs, if_pos hs]
    exact h
  · rw [if_neg hs, if_neg hs]
    exact sweep_agree (fun i => i)
      (fun i d => mulE L E (aget d (i + dep)) (aget SK (j + idx - 1)))
      (fun c => j - dep ≤ c ∧ c < j + dep) (j - dep) dep
      (fun i d => mulE_lt_2pow32 _ _ _ _)
      (fun i h1 h2 => by show j - dep ≤ i ∧ i < j + dep; constructor <;> omega)
      (fun i d d' h1 h2 hdd => by
        show mulE L E (aget d (i + dep)) (aget SK (j + idx - 1))
          = mulE L E (aget d' (i + dep)) (aget SK (j + idx - 1))
        rw [hdd (i + dep) (by
          show j - dep ≤ i + dep ∧ i + dep < j + dep
          constructor <;> omega)])
      d d' h

theorem ifltXor_invol (dep j d : Nat) (_hdep : 0 < dep) (_hj : dep ≤ j) :
    ifltXor dep j (ifltXor dep j d) = d := by
  unfold ifltXor
  exact sweep_invol (fun i => i + dep) (fun i d => aget d i) (j - dep) dep
    (fun i d => aget_lt d i)
    (fun i i' d x h1 h2 h3 h4 hx => aget_aset_ne d x hx (by show i' + dep ≠ i; omega))
    (fun i i' he => by
      have h : i + dep = i' + dep := he
      omega) d

theorem skewMul_invol (L E SK dep j idx d : Nat) (_hdep : 0 < dep) (_hj : dep ≤ j) :
    skewMul L E SK dep j idx (skewMul L E SK dep j idx d) = d := by
  unfold skewMul
  by_cases hs : aget SK (j + idx - 1) = MODULO
  · rw [if_pos hs, if_pos hs]
  · rw [if_neg hs, if_neg hs]
    exact sweep_invol (fun i => i)
      (fun i d => mulE L E (aget d (i + dep)) (aget SK (j + idx - 1))) (j - dep) dep
      (fun i d => mulE_lt_2pow32 _ _ _ _)
      (fun i i' d x h1 h2 h3 h4 hx => by
        show mulE L E (aget (aset d i' x) (i + dep)) (aget SK (j + idx - 1))
          = mulE L E (aget d (i + dep)) (aget SK (j + idx - 1))
        rw [aget_aset_ne d x hx (by omega)])
      (fun i i' he => he) d

/-! ### Disjoint local operations commute -/

theorem local_ops_commute (op1 op2 : Nat → Nat) (a1 b1 a2 b2 : Nat)
    (hdisj : b1 ≤ a2 ∨ b2 ≤ a1)
    (hf1 : ∀ d c, ¬ (a1 ≤ c ∧ c < b1) → aget (op1 d) c = aget d c)
    (hf2 : ∀ d c, ¬ (a2 ≤ c ∧ c < b2) → aget (op2 d) c = aget d c)
    (hd1 : ∀ d d', (∀ c, a1 ≤ c ∧ c < b1 → aget d c = aget d' c) →
      ∀ c, a1 ≤ c ∧ c < b1 → aget (op1 d) c = aget (op1 d') c)
    (hd2 : ∀ d d', (∀ c, a2 ≤ c ∧ c < b2 → aget d c = aget d' c) →
      ∀ c, a2 ≤ c ∧ c < b2 → aget (op2 d) c = aget (op2 d') c)
    (d : Nat) : op1 (op2 d) = op2 (op1 d) := by
  apply eq_of_aget_eq
  intro c
  by_cases h1 : a1 ≤ c ∧ c < b1
  · have hn2 : ¬ (a2 ≤ c ∧ c < b2) := by omega
    rw [hf2 (op1 d) c hn2]
    exact hd1 (op2 d) d (fun c' hc' => hf2 d c' (by omega)) c h1
  · rw [hf1 (op2 d) c h1]
    by_cases h2 : a2 ≤ c ∧ c < b2
    · exact hd2 d (op1 d) (fun c' hc' => (hf1 d c' (by omega)).symm) c h2
    · rw [hf2 d c h2, hf2 (op1 d) c h2, hf1 d c h1]

/-- An operation commuting with every in-range body commutes with the loop. -/
theorem seqUp_commute_op {α : Type} (g : Nat → α → α) (op : α → α) :
    ∀ (s n : Nat), (∀ u x, s ≤ u → u < s + n → g u (op x) = op (g u x)) →
      ∀ x, seqUp g s n (op x) = op (seqUp g s n x) := by
  intro s n
  induction n generalizing s with
  | zero => intro _ x; rfl
  | succ m ih =>
    intro hc x
    rw [seqUp_succ, seqUp_succ, hc s x (by omega) (by omega)]
    exact ih (s+1) (fun u y h1 h2 => hc u y (by omega) (by omega)) (g s x)

/-- A loop of pointwise-inverse, pairwise-commuting bodies is undone by
its inverse loop run in the same order. -/
theorem seqUp_blocks_inverse (f g : Nat → Nat → Nat) :
    ∀ (U : Nat),
      (∀ u x, u < U → g u (f u x) = x) →
      (∀ u v x, u < v → v < U → g u (f v x) = f v (g u x)) →
      ∀ x, seqUp g 0 U (seqUp f 0 U x) = x := by
  intro U
  induction U with
  | zero => intro _ _ x; rfl
  | succ m ih =>
    intro hinv hcomm x
    rw [seqUp_snoc f, seqUp_snoc g, Nat.zero_add]
    rw [seqUp_commute_op g (f m) 0 m (fun u y h1 h2 => hcomm u m y (by omega) (by omega)) _]
    rw [ih (fun u y hu => hinv u y (by omega))
      (fun u v y huv hv => hcomm u v y huv (by omega)) x]
    exact hinv m x (by omega)

/-- Running a loop of stages backwards undoes it, given stagewise inverses. -/
theorem seqUp_reverse_inverse {α : Type} (F G : Nat → α → α) :
    ∀ (n sG : Nat),
      (∀ t x, t < n → G (sG + t) (F (n - 1 - t) x) = x) →
      ∀ x, seqUp G sG n (seqUp F 0 n x) = x := by
  intro n
  induction n with
  | zero => intro _ _ x; rfl
  | succ m ih =>
    intro sG h x
    rw [seqUp_snoc F, Nat.zero_add, seqUp_succ]
    have h0 := h 0 (seqUp F 0 m x) (by omega)
    rw [Nat.add_zero, show m + 1 - 1 - 0 = m from by omega] at h0
    rw [h0]
    refine ih (sG + 1) ?_ x
    intro t y ht
    have h1 := h (t + 1) y (by omega)
    rw [show sG + (t + 1) = sG + 1 + t from by omega,
      show m + 1 - 1 - (t + 1) = m - 1 - t from by omega] at h1
    exact h1

/-! ### Transform blocks -/

theorem blockI_frame (L E SK dep j idx : Nat) (hdep : 0 < dep) (hj : dep ≤ j) (d c : Nat)
    (hc : ¬ (j - dep ≤ c ∧ c < j + dep)) :
    aget (skewMul L E SK dep j idx (ifltXor dep j d)) c = aget d c := by
  rw [skewMul_frame L E SK dep j idx _ c hdep hj hc, ifltXor_frame dep j d c hdep hj hc]

theorem blockF_frame (L E SK dep j idx : Nat) (hdep : 0 < dep) (hj : dep ≤ j) (d c : Nat)
    (hc : ¬ (j - dep ≤ c ∧ c < j + dep)) :
    aget (ifltXor dep j (skewMul L E SK dep j idx d)) c = aget d c := by
  rw [ifltXor_frame dep j _ c hdep hj hc, skewMul_frame L E SK dep j idx d c hdep hj hc]

theorem blockI_agree (L E SK dep j idx : Nat) (hdep : 0 < dep) (hj : dep ≤ j) (d d' : Nat)
    (h : ∀ c, j - dep ≤ c ∧ c < j + dep → aget d c = aget d' c) :
    ∀ c, j - dep ≤ c ∧ c < j + dep →
      aget (skewMul L E SK dep j idx (ifltXor dep j d)) c
        = aget (skewMul L E SK dep j idx (ifltXor dep j d')) c :=
  skewMul_agree L E SK dep j idx hdep hj _ _ (ifltXor_agree dep j hdep hj d d' h)

theorem blockF_agree (L E SK dep j idx : Nat) (hdep : 0 < dep) (hj : dep ≤ j) (d d' : Nat)
    (h : ∀ c, j - dep ≤ c ∧ c < j + dep → aget d c = aget d' c) :
    ∀ c, j - dep ≤ c ∧ c < j + dep →
      aget (ifltXor dep j (skewMul L E SK dep j idx d)) c
        = aget (ifltXor dep j (skewMul L E SK dep j idx d')) c :=
  ifltXor_agree dep j hdep hj _ _ (skewMul_agree L E SK dep j idx hdep hj d d' h)

theorem blockFI_id (L E SK dep j idx d : Nat) (hdep : 0 < dep) (hj : dep ≤ j) :
    ifltXor dep j (skewMul L E SK dep j idx
      (skewMul L E SK dep j idx (ifltXor dep j d))) = d := by
  rw [skewMul_invol L E SK dep j idx _ hdep hj, ifltXor_invol dep j d hdep hj]

theorem blockIF_id (L E SK dep j idx d : Nat) (hdep : 0 < dep) (hj : dep ≤ j) :
    skewMul L E SK dep j idx (ifltXor dep j
      (ifltXor dep j (skewMul L E SK dep j idx d))) = d := by
  rw [ifltXor_invol dep j _ hdep hj, skewMul_invol L E SK dep j idx d hdep hj]

/-! ### Stage inverses -/

theorem stage_FI_id (L E SK dep idx U : Nat) (hdep : 0 < dep) :
    ∀ x, seqUp (fun u d =>
        ifltXor dep (dep + (dep <<< 1) * u)
          (skewMul L E SK dep (dep + (dep <<< 1) * u) idx d)) 0 U
      (seqUp (fun u d =>
        skewMul L E SK dep (dep + (dep <<< 1) * u) idx
          (ifltXor dep (dep + (dep <<< 1) * u) d)) 0 U x) = x := by
  intro x
  have hdd : (dep <<< 1) = dep * 2 := by rw [Nat.shiftLeft_eq, pow_one]
  refine seqUp_blocks_inverse _ _ U ?_ ?_ x
  · intro u y hu
    exact blockFI_id L E SK dep (dep + (dep <<< 1) * u) idx y hdep (Nat.le_add_right _ _)
  · intro u v y huv hv
    refine local_ops_commute
      (fun d => ifltXor dep (dep + (dep <<< 1) * u)
        (skewMul L E SK dep (dep + (dep <<< 1) * u) idx d))
      (fun d => skewMul L E SK dep (dep + (dep <<< 1) * v) idx
        (ifltXor dep (dep + (dep <<< 1) * v) d))
      (dep + (dep <<< 1) * u - dep) (dep + (dep <<< 1) * u + dep)
      (dep + (dep <<< 1) * v - dep) (dep + (dep <<< 1) * v + dep)
      ?_ ?_ ?_ ?_ ?_ y
    · left
      rw [hdd]
      have hmul : dep * 2 * (u + 1) ≤ dep * 2 * v := Nat.mul_le_mul_left _ (by omega)
      have hexp : dep * 2 * (u + 1) = dep * 2 * u + dep * 2 := by ring
      omega
    · intro d c hc
      exact blockF_frame L E SK dep _ idx hdep (Nat.le_add_right _ _) d c hc
    · intro d c hc
      exact blockI_frame L E SK dep _ idx hdep (Nat.le_add_right _ _) d c hc
    · intro d d' hdd' c hc
      exact blockF_agree L E SK dep _ idx hdep (Nat.le_add_right _ _) d d' hdd' c hc
    · intro d d' hdd' c hc
      exact blockI_agree L E SK dep _ idx hdep (Nat.le_add_right _ _) d d' hdd' c hc

theorem stage_IF_id (L E SK dep idx U : Nat) (hdep : 0 < dep) :
    ∀ x, seqUp (fun u d =>
        skewMul L E SK dep (dep + (dep <<< 1) * u) idx
          (ifltXor dep (dep + (dep <<< 1) * u) d)) 0 U
      (seqUp (fun u d =>
        ifltXor dep (dep + (dep <<< 1) * u)
          (skewMul L E SK dep (dep + (dep <<< 1) * u) idx d)) 0 U x) = x := by
  intro x
  have hdd : (dep <<< 1) = dep * 2 := by rw [Nat.shiftLeft_eq, pow_one]
  refine seqUp_blocks_inverse _ _ U ?_ ?_ x
  · intro u y hu
    exact blockIF_id L E SK dep (dep + (dep <<< 1) * u) idx y hdep (Nat.le_add_right _ _)
  · intro u v y huv hv
    refine local_ops_commute
      (fun d => skewMul L E SK dep (dep + (dep <<< 1) * u) idx
        (ifltXor dep (dep + (dep <<< 1) * u) d))
      (fun d => ifltXor dep (dep + (dep <<< 1) * v)
        (skewMul L E SK dep (dep + (dep <<< 1) * v) idx d))
      (dep + (dep <<< 1) * u - dep) (dep + (dep <<< 1) * u + dep)
      (dep + (dep <<< 1) * v - dep) (dep + (dep <<< 1) * v + dep)
      ?_ ?_ ?_ ?_ ?_ y
    · left
      rw [hdd]
      have hmul : dep * 2 * (u + 1) ≤ dep * 2 * v := Nat.mul_le_mul_left _ (by omega)
      have hexp : dep * 2 * (u + 1) = dep * 2 * u + dep * 2 := by ring
      omega
    · intro d c hc
      exact blockI_frame L E SK dep _ idx hdep (Nat.le_add_right _ _) d c hc
    · intro d c hc
      exact blockF_frame L E SK dep _ idx hdep (Nat.le_add_right _ _) d c hc
    · intro d d' hdd' c hc
      exact blockI_agree L E SK dep _ idx hdep (Nat.le_add_right _ _) d d' hdd' c hc
    · intro d d' hdd' c hc
      exact blockF_agree L E SK dep _ idx hdep (Nat.le_add_right _ _) d d' hdd' c hc

/-! ### Power-of-two size bookkeeping -/

theorem log2f_pow : ∀ (fuel k : Nat), k < fuel → log2f fuel (2 ^ k) = k := by
  intro fuel
  induction fuel with
  | zero => intro k hk; exact absurd hk (by omega)
  | succ f ih =>
    intro k hk
    cases k with
    | zero =>
      show log2f (f + 1) (2 ^ 0) = 0
      unfold log2f
      rw [if_pos (by norm_num)]
    | succ m =>
      show log2f (f + 1) (2 ^ (m + 1)) = m + 1
      unfold log2f
      rw [if_neg (by have := Nat.two_pow_pos m; rw [pow_succ]; omega),
        show 2 ^ (m + 1) / 2 = 2 ^ m from by
          rw [pow_succ]; exact Nat.mul_div_cancel _ (by omega),
        ih m (by omega)]

theorem lg_pow (k : Nat) (hk : k < 64) : lg (2 ^ k) = k :=
  log2f_pow 64 k (by omega)

theorem shiftRight_pow (k t : Nat) (ht : t < k) :
    (2 ^ k) >>> (t + 1) = 1 <<< (k - 1 - t) := by
  rw [Nat.shiftRight_eq_div_pow, Nat.one_shiftLeft,
    Nat.pow_div (by omega) (by omega), show k - (t + 1) = k - 1 - t from by omega]

/-- C2: applying IFLT then FLT (or FLT then IFLT) with the same
power-of-two size and the same offset restores the array exactly, for any
tables — in particular for the tables produced by `setup()`. -/
theorem C2_transforms_inverse (logT expT skewT size idx k : Nat)
    (hsize : size = 2 ^ k) (hk : k < 64) (x : Nat) :
    FLT logT expT skewT (IFLT logT expT skewT x size idx) size idx = x ∧
    IFLT logT expT skewT (FLT logT expT skewT x size idx) size idx = x := by
  subst hsize
  constructor
  · unfold IFLT FLT
    rw [lg_pow k hk]
    refine seqUp_reverse_inverse _ _ k 0 ?_ x
    intro t y ht
    rw [Nat.zero_add]
    show seqUp (fun u d =>
        ifltXor (2 ^ k >>> (t + 1))
          (2 ^ k >>> (t + 1) + ((2 ^ k >>> (t + 1)) <<< 1) * u)
          (skewMul logT expT skewT (2 ^ k >>> (t + 1))
            (2 ^ k >>> (t + 1) + ((2 ^ k >>> (t + 1)) <<< 1) * u) idx d))
        0 (2 ^ k / ((2 ^ k >>> (t + 1)) <<< 1))
        (seqUp (fun u d =>
          skewMul logT expT skewT (1 <<< (k - 1 - t))
            (1 <<< (k - 1 - t) + ((1 <<< (k - 1 - t)) <<< 1) * u) idx
            (ifltXor (1 <<< (k - 1 - t))
              (1 <<< (k - 1 - t) + ((1 <<< (k - 1 - t)) <<< 1) * u) d))
          0 (2 ^ k / ((1 <<< (k - 1 - t)) <<< 1)) y) = y
    rw [shiftRight_pow k t ht]
    exact stage_FI_id logT expT skewT (1 <<< (k - 1 - t)) idx _
      (by rw [Nat.one_shiftLeft]; exact Nat.two_pow_pos _) y
  · unfold IFLT FLT
    rw [lg_pow k hk]
    refine seqUp_reverse_inverse _ _ k 0 ?_ x
    intro t y ht
    rw [Nat.zero_add]
    show seqUp (fun u d =>
        skewMul logT expT skewT (1 <<< t) (1 <<< t + ((1 <<< t) <<< 1) * u) idx
          (ifltXor (1 <<< t) (1 <<< t + ((1 <<< t) <<< 1) * u) d))
        0 (2 ^ k / ((1 <<< t) <<< 1))
        (seqUp (fun u d =>
          ifltXor (2 ^ k >>> ((k - 1 - t) + 1))
            (2 ^ k >>> ((k - 1 - t) + 1) + ((2 ^ k >>> ((k - 1 - t) + 1)) <<< 1) * u)
            (skewMul logT expT skewT (2 ^ k >>> ((k - 1 - t) + 1))
              (2 ^ k >>> ((k - 1 - t) + 1) + ((2 ^ k >>> ((k - 1 - t) + 1)) <<< 1) * u)
              idx d))
          0 (2 ^ k / ((2 ^ k >>> ((k - 1 - t) + 1)) <<< 1)) y) = y
    rw [shiftRight_pow k (k - 1 - t) (by omega),
      show k - 1 - (k - 1 - t) = t from by omega]
    exact stage_IF_id logT expT skewT (1 <<< t) idx _
      (by rw [Nat.one_shiftLeft]; exact Nat.two_pow_pos _) y

/-- C2 witness: `size = 2`, zero tables, zero data. -/
theorem C2_witness :
    FLT 0 0 0 (IFLT 0 0 0 0 2 0) 2 0 = 0 ∧
    IFLT 0 0 0 (FLT 0 0 0 0 2 0) 2 0 = 0 :=
  C2_transforms_inverse 0 0 0 2 0 1 (by norm_num) (by norm_num) 0

/-! ## Walsh butterfly and stage structure (for C10) -/

theorem foldM_lt32 {z : Nat} (hz : z < 2 ^ 33) : foldM z < 2 ^ 32 := by
  unfold foldM
  rw [moduloVal]
  have h1 : z &&& 65535 ≤ 65535 := Nat.and_le_right
  have h2 : z >>> FIELD_BITS = z / 65536 := by
    rw [show FIELD_BITS = 16 from rfl, Nat.shiftRight_eq_div_pow]
  rw [h2]
  omega

theorem foldM_small {z : Nat} (hz : z ≤ 65535) : foldM z = z := by
  unfold foldM
  rw [moduloVal]
  have h1 : z &&& 65535 = z % 65536 := by
    rw [show (65535 : Nat) = 2 ^ 16 - 1 from by norm_num, Nat.and_pow_two_sub_one_eq_mod]
  have h2 : z >>> FIELD_BITS = z / 65536 := by
    rw [show FIELD_BITS = 16 from rfl, Nat.shiftRight_eq_div_pow]
  rw [h1, h2]
  omega

theorem foldM_sub {z : Nat} (h1 : 65536 ≤ z) (h2 : z ≤ 131070) : foldM z = z - 65535 := by
  unfold foldM
  rw [moduloVal]
  have ha : z &&& 65535 = z % 65536 := by
    rw [show (65535 : Nat) = 2 ^ 16 - 1 from by norm_num, Nat.and_pow_two_sub_one_eq_mod]
  have hb : z >>> FIELD_BITS = z / 65536 := by
    rw [show FIELD_BITS = 16 from rfl, Nat.shiftRight_eq_div_pow]
  rw [ha, hb]
  omega

theorem wBfly_cell_lo (dep i w : Nat) (hdep : 0 < dep) :
    aget (wBfly dep i w) i = foldM (aget w i + aget w (i + dep)) := by
  have hv1 : foldM (aget w i + aget w (i + dep)) < 2 ^ 32 :=
    foldM_lt32 (by have := aget_lt w i; have := aget_lt w (i + dep); omega)
  have hv2 : foldM (aget w i + MODULO - aget w (i + dep)) < 2 ^ 32 :=
    foldM_lt32 (by have := aget_lt w i; have hM := moduloVal; omega)
  show aget (aset (aset w i (foldM (aget w i + aget w (i + dep)))) (i + dep)
    (foldM (aget w i + MODULO - aget w (i + dep)))) i = _
  rw [aget_aset_ne _ _ hv2 (by omega), aget_aset_self _ _ hv1]

theorem wBfly_cell_hi (dep i w : Nat) (_hdep : 0 < dep) :
    aget (wBfly dep i w) (i + dep) = foldM (aget w i + MODULO - aget w (i + dep)) := by
  have hv2 : foldM (aget w i + MODULO - aget w (i + dep)) < 2 ^ 32 :=
    foldM_lt32 (by have := aget_lt w i; have hM := moduloVal; omega)
  show aget (aset (aset w i (foldM (aget w i + aget w (i + dep)))) (i + dep)
    (foldM (aget w i + MODULO - aget w (i + dep)))) (i + dep) = _
  rw [aget_aset_self _ _ hv2]

theorem wBfly_frame (dep i w c : Nat) (h1 : c ≠ i) (h2 : c ≠ i + dep) :
    aget (wBfly dep i w) c = aget w c := by
  have hv1 : foldM (aget w i + aget w (i + dep)) < 2 ^ 32 :=
    foldM_lt32 (by have := aget_lt w i; have := aget_lt w (i + dep); omega)
  have hv2 : foldM (aget w i + MODULO - aget w (i + dep)) < 2 ^ 32 :=
    foldM_lt32 (by have := aget_lt w i; have hM := moduloVal; omega)
  show aget (aset (aset w i (foldM (aget w i + aget w (i + dep)))) (i + dep)
    (foldM (aget w i + MODULO - aget w (i + dep)))) c = _
  rw [aget_aset_ne _ _ hv2 (fun h => h2 h.symm), aget_aset_ne _ _ hv1 (fun h => h1 h.symm)]

/-- Cells outside `[j0, j0 + 2*dep)` are untouched by one butterfly block. -/
theorem blockW_frame (dep j0 w c : Nat)
    (hc : ∀ i, j0 ≤ i → i < j0 + dep → i ≠ c ∧ i + dep ≠ c) :
    aget (seqUp (wBfly dep) j0 dep w) c = aget w c :=
  seqUp_cell_unchanged_ranged (wBfly dep) c j0 dep
    (fun i a ha hb =>
      wBfly_frame dep i a c (fun h => (hc i ha hb).1 h.symm)
        (fun h => (hc i ha hb).2 h.symm)) w

/-- Split a loop at one interior iteration. -/
theorem seqUp_split_at {α : Type} (f : Nat → α → α) (s n i : Nat) (a : α)
    (hi1 : s ≤ i) (hi2 : i < s + n) :
    seqUp f s n a = seqUp f (i + 1) (s + n - (i + 1)) (f i (seqUp f s (i - s) a)) := by
  conv_lhs => rw [show n = (i - s) + (1 + (s + n - (i + 1))) from by omega]
  rw [seqUp_add, show s + (i - s) = i from by omega, seqUp_add, seqUp_one]

theorem blockW_cell_lo (dep j0 w i0 : Nat) (hdep : 0 < dep)
    (h1 : j0 ≤ i0) (h2 : i0 < j0 + dep) :
    aget (seqUp (wBfly dep) j0 dep w) i0 = foldM (aget w i0 + aget w (i0 + dep)) := by
  rw [seqUp_split_at (wBfly dep) j0 dep i0 w h1 h2]
  rw [seqUp_cell_unchanged_ranged (wBfly dep) i0 (i0 + 1) (j0 + dep - (i0 + 1))
    (fun i a hi1 hi2 => wBfly_frame dep i a i0 (by omega) (by omega)) _]
  rw [wBfly_cell_lo dep i0 _ hdep]
  rw [seqUp_cell_unchanged_ranged (wBfly dep) i0 j0 (i0 - j0)
      (fun i a hi1 hi2 => wBfly_frame dep i a i0 (by omega) (by omega)) w,
    seqUp_cell_unchanged_ranged (wBfly dep) (i0 + dep) j0 (i0 - j0)
      (fun i a hi1 hi2 => wBfly_frame dep i a (i0 + dep) (by omega) (by omega)) w]

theorem blockW_cell_hi (dep j0 w i0 : Nat) (hdep : 0 < dep)
    (h1 : j0 ≤ i0) (h2 : i0 < j0 + dep) :
    aget (seqUp (wBfly dep) j0 dep w) (i0 + dep)
      = foldM (aget w i0 + MODULO - aget w (i0 + dep)) := by
  rw [seqUp_split_at (wBfly dep) j0 dep i0 w h1 h2]
  rw [seqUp_cell_unchanged_ranged (wBfly dep) (i0 + dep) (i0 + 1) (j0 + dep - (i0 + 1))
    (fun i a hi1 hi2 => wBfly_frame dep i a (i0 + dep) (by omega) (by omega)) _]
  rw [wBfly_cell_hi dep i0 _ hdep]
  rw [seqUp_cell_unchanged_ranged (wBfly dep) i0 j0 (i0 - j0)
      (fun i a hi1 hi2 => wBfly_frame dep i a i0 (by omega) (by omega)) w,
    seqUp_cell_unchanged_ranged (wBfly dep) (i0 + dep) j0 (i0 - j0)
      (fun i a hi1 hi2 => wBfly_frame dep i a (i0 + dep) (by omega) (by omega)) w]

/-- One walsh stage: the new value of the lower cell of a butterfly. -/
theorem wStage_cell_lo (size dep u r w : Nat) (hdep : 0 < dep)
    (hu : u < size / (dep <<< 1)) (hr : r < dep) :
    aget (wStage size dep w) ((dep <<< 1) * u + r)
      = foldM (aget w ((dep <<< 1) * u + r) + aget w ((dep <<< 1) * u + r + dep)) := by
  have hdd : (dep <<< 1) = dep * 2 := by rw [Nat.shiftLeft_eq, pow_one]
  have hblk : ∀ c, (dep <<< 1) * u ≤ c → c < (dep <<< 1) * u + (dep <<< 1) →
      ∀ v, v ≠ u → ∀ a,
      aget (seqUp (wBfly dep) ((dep <<< 1) * v) dep a) c = aget a c := by
    intro c hc1 hc2 v hv a
    refine blockW_frame dep _ a _ ?_
    intro i hi1 hi2
    rw [hdd] at hc1 hc2 hi1 hi2
    rcases Nat.lt_or_ge v u with hvu | hvu
    · have hmul : dep * 2 * (v + 1) ≤ dep * 2 * u := Nat.mul_le_mul_left _ (by omega)
      have hexp : dep * 2 * (v + 1) = dep * 2 * v + dep * 2 := by ring
      exact ⟨by omega, by omega⟩
    · have huv : u < v := by omega
      have hmul : dep * 2 * (u + 1) ≤ dep * 2 * v := Nat.mul_le_mul_left _ (by omega)
      have hexp : dep * 2 * (u + 1) = dep * 2 * u + dep * 2 := by ring
      exact ⟨by omega, by omega⟩
  unfold wStage
  rw [seqUp_split_at _ 0 (size / (dep <<< 1)) u w (by omega) (by omega)]
  rw [seqUp_cell_unchanged_ranged _ ((dep <<< 1) * u + r) (u + 1) _
    (fun v a hv1 hv2 =>
      hblk _ (Nat.le_add_right _ _) (by rw [hdd]; omega) v (by omega) a) _]
  rw [Nat.sub_zero]
  rw [blockW_cell_lo dep ((dep <<< 1) * u) _ ((dep <<< 1) * u + r) hdep
    (Nat.le_add_right _ _) (by omega)]
  rw [seqUp_cell_unchanged_ranged _ ((dep <<< 1) * u + r) 0 u
      (fun v a hv1 hv2 =>
        hblk _ (Nat.le_add_right _ _) (by rw [hdd]; omega) v (by omega) a) w,
    seqUp_cell_unchanged_ranged _ ((dep <<< 1) * u + r + dep) 0 u
      (fun v a hv1 hv2 => hblk _ (by omega) (by rw [hdd]; omega) v (by omega) a) w]

/-- One walsh stage: the new value of the upper cell of a butterfly. -/
theorem wStage_cell_hi (size dep u r w : Nat) (hdep : 0 < dep)
    (hu : u < size / (dep <<< 1)) (hr : r < dep) :
    aget (wStage size dep w) ((dep <<< 1) * u + r + dep)
      = foldM (aget w ((dep <<< 1) * u + r) + MODULO
          - aget w ((dep <<< 1) * u + r + dep)) := by
  have hdd : (dep <<< 1) = dep * 2 := by rw [Nat.shiftLeft_eq, pow_one]
  have hblk : ∀ c, (dep <<< 1) * u ≤ c → c < (dep <<< 1) * u + (dep <<< 1) →
      ∀ v, v ≠ u → ∀ a,
      aget (seqUp (wBfly dep) ((dep <<< 1) * v) dep a) c = aget a c := by
    intro c hc1 hc2 v hv a
    refine blockW_frame dep _ a _ ?_
    intro i hi1 hi2
    rw [hdd] at hc1 hc2 hi1 hi2
    rcases Nat.lt_or_ge v u with hvu | hvu
    · have hmul : dep * 2 * (v + 1) ≤ dep * 2 * u := Nat.mul_le_mul_left _ (by omega)
      have hexp : dep * 2 * (v + 1) = dep * 2 * v + dep * 2 := by ring
      exact ⟨by omega, by omega⟩
    · have huv : u < v := by omega
      have hmul : dep * 2 * (u + 1) ≤ dep * 2 * v := Nat.mul_le_mul_left _ (by omega)
      have hexp : dep * 2 * (u + 1) = dep * 2 * u + dep * 2 := by ring
      exact ⟨by omega, by omega⟩
  unfold wStage
  rw [seqUp_split_at _ 0 (size / (dep <<< 1)) u w (by omega) (by omega)]
  rw [seqUp_cell_unchanged_ranged _ ((dep <<< 1) * u + r + dep) (u + 1) _
    (fun v a hv1 hv2 => hblk _ (by omega) (by rw [hdd]; omega) v (by omega) a) _]
  rw [Nat.sub_zero]
  rw [blockW_cell_hi dep ((dep <<< 1) * u) _ ((dep <<< 1) * u + r) hdep
    (Nat.le_add_right _ _) (by omega)]
  rw [seqUp_cell_unchanged_ranged _ ((dep <<< 1) * u + r) 0 u
      (fun v a hv1 hv2 =>
        hblk _ (Nat.le_add_right _ _) (by rw [hdd]; omega) v (by omega) a) w,
    seqUp_cell_unchanged_ranged _ ((dep <<< 1) * u + r + dep) 0 u
      (fun v a hv1 hv2 => hblk _ (by omega) (by rw [hdd]; omega) v (by omega) a) w]

/-- Cells at or above the stage's sweep range are untouched. -/
theorem wStage_frame (size dep w c : Nat)
    (hc : (dep <<< 1) * (size / (dep <<< 1)) ≤ c) :
    aget (wStage size dep w) c = aget w c := by
  have hdd : (dep <<< 1) = dep * 2 := by rw [Nat.shiftLeft_eq, pow_one]
  unfold wStage
  refine seqUp_cell_unchanged_ranged _ c 0 (size / (dep <<< 1)) ?_ w
  intro v a hv1 hv2
  refine blockW_frame dep _ a _ ?_
  intro i hi1 hi2
  rw [hdd] at hc hv2 hi1 hi2
  have hmul : dep * 2 * (v + 1) ≤ dep * 2 * (size / (dep * 2)) :=
    Nat.mul_le_mul_left _ (by omega)
  have hexp : dep * 2 * (v + 1) = dep * 2 * v + dep * 2 := by ring
  exact ⟨by omega, by omega⟩

/-! ## The stages of walsh at FIELD_SIZE, in power-of-two form -/

theorem shiftL_one_t (t : Nat) : (1 : Nat) <<< t = 2 ^ t := Nat.one_shiftLeft t

theorem shiftL_pow_one (t : Nat) : (2 ^ t) <<< 1 = 2 ^ (t + 1) := by
  rw [Nat.shiftLeft_eq, pow_one, pow_succ]

theorem fieldSize_pow : FIELD_SIZE = 2 ^ 16 := by decide

theorem fieldSize_div_pow (t : Nat) (ht : t < 16) :
    FIELD_SIZE / 2 ^ (t + 1) = 2 ^ (15 - t) := by
  rw [fieldSize_pow, Nat.pow_div (by omega) (by omega)]
  congr 1
  omega

/-- The lower-cell update of stage `t` of `walsh(·, FIELD_SIZE)`. -/
theorem stageF_cell_lo (t u r w : Nat) (ht : t < 16) (hu : u < 2 ^ (15 - t))
    (hr : r < 2 ^ t) :
    aget (wStage FIELD_SIZE (1 <<< t) w) (2 ^ (t + 1) * u + r)
      = foldM (aget w (2 ^ (t + 1) * u + r) + aget w (2 ^ (t + 1) * u + r + 2 ^ t)) := by
  rw [shiftL_one_t]
  have H := wStage_cell_lo FIELD_SIZE (2 ^ t) u r w (Nat.two_pow_pos t)
    (by rw [shiftL_pow_one, fieldSize_div_pow t ht]; exact hu) hr
  rw [shiftL_pow_one] at H
  exact H

/-- The upper-cell update of stage `t` of `walsh(·, FIELD_SIZE)`. -/
theorem stageF_cell_hi (t u r w : Nat) (ht : t < 16) (hu : u < 2 ^ (15 - t))
    (hr : r < 2 ^ t) :
    aget (wStage FIELD_SIZE (1 <<< t) w) (2 ^ (t + 1) * u + r + 2 ^ t)
      = foldM (aget w (2 ^ (t + 1) * u + r) + MODULO
          - aget w (2 ^ (t + 1) * u + r + 2 ^ t)) := by
  rw [shiftL_one_t]
  have H := wStage_cell_hi FIELD_SIZE (2 ^ t) u r w (Nat.two_pow_pos t)
    (by rw [shiftL_pow_one, fieldSize_div_pow t ht]; exact hu) hr
  rw [shiftL_pow_one] at H
  exact H

/-- Stage `t` never touches cells at or beyond `FIELD_SIZE`. -/
theorem stageF_frame (t w c : Nat) (ht : t < 16) (hc : FIELD_SIZE ≤ c) :
    aget (wStage FIELD_SIZE (1 <<< t) w) c = aget w c := by
  rw [shiftL_one_t]
  refine wStage_frame FIELD_SIZE (2 ^ t) w c ?_
  rw [shiftL_pow_one, fieldSize_div_pow t ht]
  have h2 : (2 : Nat) ^ (t + 1) * 2 ^ (15 - t) = 2 ^ 16 := by
    rw [← pow_add]
    congr 1
    omega
  rw [h2, ← fieldSize_pow]
  exact hc

/-- Every cell below `FIELD_SIZE` is the lower or the upper cell of exactly
one stage-`t` butterfly. -/
theorem cellF_cases (t c : Nat) (ht : t < 16) (hc : c < FIELD_SIZE) :
    (∃ u r, u < 2 ^ (15 - t) ∧ r < 2 ^ t ∧ c = 2 ^ (t + 1) * u + r) ∨
    (∃ u r, u < 2 ^ (15 - t) ∧ r < 2 ^ t ∧ c = 2 ^ (t + 1) * u + r + 2 ^ t) := by
  have hdm := Nat.div_add_mod c (2 ^ (t + 1))
  have hmod : c % 2 ^ (t + 1) < 2 ^ (t + 1) := Nat.mod_lt _ (Nat.two_pow_pos _)
  have hu : c / 2 ^ (t + 1) < 2 ^ (15 - t) := by
    have h2 : (2 : Nat) ^ (t + 1) * 2 ^ (15 - t) = 2 ^ 16 := by
      rw [← pow_add]
      congr 1
      omega
    have hlt : c < 2 ^ (t + 1) * 2 ^ (15 - t) := by
      rw [h2, ← fieldSize_pow]
      exact hc
    have hml : 2 ^ (t + 1) * (c / 2 ^ (t + 1)) < 2 ^ (t + 1) * 2 ^ (15 - t) := by omega
    exact Nat.lt_of_mul_lt_mul_left hml
  rcases Nat.lt_or_ge (c % 2 ^ (t + 1)) (2 ^ t) with hr | hr
  · exact Or.inl ⟨c / 2 ^ (t + 1), c % 2 ^ (t + 1), hu, hr, by omega⟩
  · refine Or.inr ⟨c / 2 ^ (t + 1), c % 2 ^ (t + 1) - 2 ^ t, hu, ?_, ?_⟩
    · have hpp : (2 : Nat) ^ (t + 1) = 2 ^ t * 2 := pow_succ 2 t
      omega
    · omega

/-- The upper butterfly cell is still inside the array. -/
theorem cellF_lt (t u r : Nat) (ht : t < 16) (hu : u < 2 ^ (15 - t))
    (hr : r < 2 ^ t) : 2 ^ (t + 1) * u + r + 2 ^ t < FIELD_SIZE := by
  have h1 : 2 ^ (t + 1) * (u + 1) ≤ 2 ^ (t + 1) * 2 ^ (15 - t) :=
    Nat.mul_le_mul_left _ (by omega)
  have h2 : (2 : Nat) ^ (t + 1) * 2 ^ (15 - t) = 2 ^ 16 := by
    rw [← pow_add]
    congr 1
    omega
  have h3 : (2 : Nat) ^ (t + 1) * (u + 1) = 2 ^ (t + 1) * u + 2 ^ (t + 1) := by ring
  have h4 : (2 : Nat) ^ (t + 1) = 2 ^ t * 2 := pow_succ 2 t
  have h5 : (2 : Nat) ^ 16 = 65536 := by norm_num
  have h6 : FIELD_SIZE = 65536 := by decide
  omega

/-! ## Modular position facts for the butterfly cells -/

theorem mod_lo_t (t u r : Nat) (hr : r < 2 ^ t) :
    (2 ^ (t + 1) * u + r) % 2 ^ t = r := by
  have h4 : (2 : Nat) ^ (t + 1) * u + r = 2 ^ t * (2 * u) + r := by
    rw [pow_succ]; ring
  rw [h4, Nat.mul_add_mod, Nat.mod_eq_of_lt hr]

theorem mod_hi_t (t u r : Nat) (hr : r < 2 ^ t) :
    (2 ^ (t + 1) * u + r + 2 ^ t) % 2 ^ t = r := by
  have h4 : (2 : Nat) ^ (t + 1) * u + r + 2 ^ t = 2 ^ t * (2 * u + 1) + r := by
    rw [pow_succ]; ring
  rw [h4, Nat.mul_add_mod, Nat.mod_eq_of_lt hr]

theorem mod_lo_T (t u r : Nat) (hr : r < 2 ^ t) :
    (2 ^ (t + 1) * u + r) % 2 ^ (t + 1) = r := by
  rw [Nat.mul_add_mod]
  have h4 : (2 : Nat) ^ (t + 1) = 2 ^ t * 2 := pow_succ 2 t
  exact Nat.mod_eq_of_lt (by omega)

theorem mod_hi_T (t u r : Nat) (hr : r < 2 ^ t) :
    (2 ^ (t + 1) * u + r + 2 ^ t) % 2 ^ (t + 1) = r + 2 ^ t := by
  rw [Nat.add_assoc, Nat.mul_add_mod]
  have h4 : (2 : Nat) ^ (t + 1) = 2 ^ t * 2 := pow_succ 2 t
  exact Nat.mod_eq_of_lt (by omega)

/-! ## walshStages basics -/

theorem walshStages_succ (n w : Nat) :
    walshStages (n + 1) w = wStage FIELD_SIZE (1 <<< n) (walshStages n w) := by
  unfold walshStages
  rw [seqUp_snoc, Nat.zero_add]

theorem walsh_eq_stages (w : Nat) : walsh w FIELD_SIZE = walshStages 16 w := by
  unfold walsh walshStages
  rw [show lg FIELD_SIZE = 16 from by decide]

theorem walshStages_frame : ∀ n, n ≤ 16 → ∀ w c, FIELD_SIZE ≤ c →
    aget (walshStages n w) c = aget w c := by
  intro n
  induction n with
  | zero => intro _ w c _; rfl
  | succ k ih =>
    intro hk w c hc
    rw [walshStages_succ, stageF_frame k _ c (by omega) hc, ih (by omega) w c hc]

/-- Writing a cell's own value back leaves the array unchanged. -/
theorem aset_noop (a i : Nat) : aset a i (aget a i) = a := by
  unfold aset
  rw [Nat.xor_self, Nat.zero_shiftLeft, Nat.xor_zero]

theorem tables0_lwT : tables0.lwT = 0 := rfl

/-! ## The walsh transform of the all-zero array

After `t` stages, a cell holds 0 iff its index is divisible by `2^t`,
and 65535 otherwise. -/

theorem walshZ_inv : ∀ t, t ≤ 16 → ∀ c, c < FIELD_SIZE →
    aget (walshStages t 0) c = if c % 2 ^ t = 0 then 0 else 65535 := by
  intro t
  induction t with
  | zero =>
    intro _ c _
    show aget 0 c = _
    rw [aget_zero, pow_zero, Nat.mod_one, if_pos rfl]
  | succ t ih =>
    intro ht c hc
    have ht' : t < 16 := by omega
    have IH := ih (by omega)
    rw [walshStages_succ]
    rcases cellF_cases t c ht' hc with ⟨u, r, hu, hr, hceq⟩ | ⟨u, r, hu, hr, hceq⟩
    · subst hceq
      rw [stageF_cell_lo t u r _ ht' hu hr,
        IH (2 ^ (t + 1) * u + r) (by have := cellF_lt t u r ht' hu hr; omega),
        IH (2 ^ (t + 1) * u + r + 2 ^ t) (cellF_lt t u r ht' hu hr),
        mod_lo_t t u r hr, mod_hi_t t u r hr, mod_lo_T t u r hr]
      by_cases hr0 : r = 0
      · rw [if_pos hr0]
        decide
      · rw [if_neg hr0]
        decide
    · subst hceq
      rw [stageF_cell_hi t u r _ ht' hu hr,
        IH (2 ^ (t + 1) * u + r) (by have := cellF_lt t u r ht' hu hr; omega),
        IH (2 ^ (t + 1) * u + r + 2 ^ t) (cellF_lt t u r ht' hu hr),
        mod_lo_t t u r hr, mod_hi_t t u r hr, mod_hi_T t u r hr]
      rw [if_neg (show ¬(r + 2 ^ t = 0) from by have := Nat.two_pow_pos t; omega)]
      by_cases hr0 : r = 0
      · rw [if_pos hr0]
        decide
      · rw [if_neg hr0]
        decide

/-! ## The walsh transform of an array that is 0 at cell 0 and 65535 elsewhere

After `t` stages the single zero sits at cell `2^t - 1`; all other cells
hold 65535. -/

theorem loCell_ne_top (t u r : Nat) (hr : r < 2 ^ t) :
    2 ^ (t + 1) * u + r ≠ 2 ^ (t + 1) - 1 := by
  have hp := Nat.two_pow_pos t
  have hps : (2 : Nat) ^ (t + 1) = 2 ^ t * 2 := pow_succ 2 t
  rcases Nat.eq_zero_or_pos u with h0 | h0
  · subst h0
    omega
  · have hle : 2 ^ (t + 1) * 1 ≤ 2 ^ (t + 1) * u := Nat.mul_le_mul_left _ h0
    omega

theorem walshA2_inv (x : Nat)
    (hx : ∀ c, c < FIELD_SIZE → aget x c = if c = 0 then 0 else 65535) :
    ∀ t, t ≤ 16 → ∀ c, c < FIELD_SIZE →
      aget (walshStages t x) c = if c = 2 ^ t - 1 then 0 else 65535 := by
  intro t
  induction t with
  | zero =>
    intro _ c hc
    show aget x c = _
    rw [hx c hc]
    norm_num
  | succ t ih =>
    intro ht c hc
    have ht' : t < 16 := by omega
    have IH := ih (by omega)
    have hp := Nat.two_pow_pos t
    have hps : (2 : Nat) ^ (t + 1) = 2 ^ t * 2 := pow_succ 2 t
    rw [walshStages_succ]
    rcases cellF_cases t c ht' hc with ⟨u, r, hu, hr, hceq⟩ | ⟨u, r, hu, hr, hceq⟩
    · subst hceq
      rw [stageF_cell_lo t u r _ ht' hu hr,
        IH (2 ^ (t + 1) * u + r) (by have := cellF_lt t u r ht' hu hr; omega),
        IH (2 ^ (t + 1) * u + r + 2 ^ t) (cellF_lt t u r ht' hu hr),
        if_neg (show ¬(2 ^ (t + 1) * u + r + 2 ^ t = 2 ^ t - 1) from by omega),
        if_neg (loCell_ne_top t u r hr)]
      by_cases hl : 2 ^ (t + 1) * u + r = 2 ^ t - 1
      · rw [if_pos hl]
        decide
      · rw [if_neg hl]
        decide
    · subst hceq
      rw [stageF_cell_hi t u r _ ht' hu hr,
        IH (2 ^ (t + 1) * u + r) (by have := cellF_lt t u r ht' hu hr; omega),
        IH (2 ^ (t + 1) * u + r + 2 ^ t) (cellF_lt t u r ht' hu hr),
        if_neg (show ¬(2 ^ (t + 1) * u + r + 2 ^ t = 2 ^ t - 1) from by omega)]
      by_cases hl : 2 ^ (t + 1) * u + r = 2 ^ t - 1
      · rw [if_pos hl,
          if_pos (show 2 ^ (t + 1) * u + r + 2 ^ t = 2 ^ (t + 1) - 1 from by omega)]
        decide
      · rw [if_neg hl,
          if_neg (show ¬(2 ^ (t + 1) * u + r + 2 ^ t = 2 ^ (t + 1) - 1) from by omega)]
        decide

/-! ## The walsh transform of the delta array (1 at cell 1, 0 elsewhere)

After `t ≥ 1` stages, cells below `2^t` alternate 1 (even) / 65534 (odd);
cells at or above `2^t` hold 0 at multiples of `2^t` and 65535 otherwise. -/

theorem walshB1_inv (x : Nat)
    (hx : ∀ c, c < FIELD_SIZE → aget x c = if c = 1 then 1 else 0) :
    ∀ t, 1 ≤ t → t ≤ 16 → ∀ c, c < FIELD_SIZE →
      aget (walshStages t x) c =
        if c < 2 ^ t then (if c % 2 = 0 then 1 else 65534)
        else (if c % 2 ^ t = 0 then 0 else 65535) := by
  intro t
  induction t with
  | zero => intro h1; exact absurd h1 (by omega)
  | succ t ih =>
    intro _ ht c hc
    rw [walshStages_succ]
    rcases Nat.eq_zero_or_pos t with ht0 | ht0
    · subst ht0
      have e1 : (2 : Nat) ^ (0 + 1) = 2 := by norm_num
      have e0 : (2 : Nat) ^ 0 = 1 := by norm_num
      rcases cellF_cases 0 c (by omega) hc with ⟨u, r, hu, hr, hceq⟩ | ⟨u, r, hu, hr, hceq⟩
      · have hr0 : r = 0 := by omega
        subst hr0
        subst hceq
        rw [stageF_cell_lo 0 u 0 _ (by omega) hu (by omega),
          show walshStages 0 x = x from rfl,
          hx (2 ^ (0 + 1) * u + 0) (by have := cellF_lt 0 u 0 (by omega) hu (by omega); omega),
          hx (2 ^ (0 + 1) * u + 0 + 2 ^ 0) (cellF_lt 0 u 0 (by omega) hu (by omega)),
          e1, e0]
        by_cases hu0 : u = 0
        · subst hu0
          decide
        · rw [if_neg (show ¬(2 * u + 0 = 1) from by omega),
            if_neg (show ¬(2 * u + 0 + 1 = 1) from by omega),
            if_neg (show ¬(2 * u + 0 < 2) from by omega),
            if_pos (show (2 * u + 0) % 2 = 0 from by omega)]
          decide
      · have hr0 : r = 0 := by omega
        subst hr0
        subst hceq
        rw [stageF_cell_hi 0 u 0 _ (by omega) hu (by omega),
          show walshStages 0 x = x from rfl,
          hx (2 ^ (0 + 1) * u + 0) (by have := cellF_lt 0 u 0 (by omega) hu (by omega); omega),
          hx (2 ^ (0 + 1) * u + 0 + 2 ^ 0) (cellF_lt 0 u 0 (by omega) hu (by omega)),
          e1, e0]
        by_cases hu0 : u = 0
        · subst hu0
          decide
        · rw [if_neg (show ¬(2 * u + 0 = 1) from by omega),
            if_neg (show ¬(2 * u + 0 + 1 = 1) from by omega),
            if_neg (show ¬(2 * u + 0 + 1 < 2) from by omega),
            if_neg (show ¬((2 * u + 0 + 1) % 2 = 0) from by omega)]
          decide
    · have ht' : t < 16 := by omega
      have IH := ih ht0 (by omega)
      have hp := Nat.two_pow_pos t
      have hA := Nat.two_pow_pos (t + 1)
      have hps : (2 : Nat) ^ (t + 1) = 2 ^ t * 2 := pow_succ 2 t
      have hdvd : (2 : Nat) ∣ 2 ^ t := dvd_pow_self 2 (by omega)
      rcases cellF_cases t c ht' hc with ⟨u, r, hu, hr, hceq⟩ | ⟨u, r, hu, hr, hceq⟩
      · subst hceq
        rw [stageF_cell_lo t u r _ ht' hu hr,
          IH (2 ^ (t + 1) * u + r) (by have := cellF_lt t u r ht' hu hr; omega),
          IH (2 ^ (t + 1) * u + r + 2 ^ t) (cellF_lt t u r ht' hu hr)]
        by_cases hu0 : u = 0
        · subst hu0
          rw [if_pos (show 2 ^ (t + 1) * 0 + r < 2 ^ t from by omega),
            if_neg (show ¬(2 ^ (t + 1) * 0 + r + 2 ^ t < 2 ^ t) from by omega),
            mod_hi_t t 0 r hr,
            if_pos (show 2 ^ (t + 1) * 0 + r < 2 ^ (t + 1) from by omega)]
          by_cases hr0 : r = 0
          · rw [if_pos hr0, if_pos (show (2 ^ (t + 1) * 0 + r) % 2 = 0 from by omega)]
            decide
          · rw [if_neg hr0]
            by_cases hpar : r % 2 = 0
            · rw [if_pos (show (2 ^ (t + 1) * 0 + r) % 2 = 0 from by omega)]
              decide
            · rw [if_neg (show ¬((2 ^ (t + 1) * 0 + r) % 2 = 0) from by omega)]
              decide
        · have hle : 2 ^ (t + 1) * 1 ≤ 2 ^ (t + 1) * u := Nat.mul_le_mul_left _ (by omega)
          rw [if_neg (show ¬(2 ^ (t + 1) * u + r < 2 ^ t) from by omega),
            mod_lo_t t u r hr,
            if_neg (show ¬(2 ^ (t + 1) * u + r + 2 ^ t < 2 ^ t) from by omega),
            mod_hi_t t u r hr,
            if_neg (show ¬(2 ^ (t + 1) * u + r < 2 ^ (t + 1)) from by omega),
            mod_lo_T t u r hr]
          by_cases hr0 : r = 0
          · rw [if_pos hr0]
            decide
          · rw [if_neg hr0]
            decide
      · subst hceq
        rw [stageF_cell_hi t u r _ ht' hu hr,
          IH (2 ^ (t + 1) * u + r) (by have := cellF_lt t u r ht' hu hr; omega),
          IH (2 ^ (t + 1) * u + r + 2 ^ t) (cellF_lt t u r ht' hu hr)]
        by_cases hu0 : u = 0
        · subst hu0
          rw [if_pos (show 2 ^ (t + 1) * 0 + r < 2 ^ t from by omega),
            if_neg (show ¬(2 ^ (t + 1) * 0 + r + 2 ^ t < 2 ^ t) from by omega),
            mod_hi_t t 0 r hr,
            if_pos (show 2 ^ (t + 1) * 0 + r + 2 ^ t < 2 ^ (t + 1) from by omega)]
          by_cases hr0 : r = 0
          · rw [if_pos hr0,
              if_pos (show (2 ^ (t + 1) * 0 + r) % 2 = 0 from by omega),
              if_pos (show (2 ^ (t + 1) * 0 + r + 2 ^ t) % 2 = 0 from by omega)]
            decide
          · rw [if_neg hr0]
            by_cases hpar : r % 2 = 0
            · rw [if_pos (show (2 ^ (t + 1) * 0 + r) % 2 = 0 from by omega),
                if_pos (show (2 ^ (t + 1) * 0 + r + 2 ^ t) % 2 = 0 from by omega)]
              decide
            · rw [if_neg (show ¬((2 ^ (t + 1) * 0 + r) % 2 = 0) from by omega),
                if_neg (show ¬((2 ^ (t + 1) * 0 + r + 2 ^ t) % 2 = 0) from by omega)]
              decide
        · have hle : 2 ^ (t + 1) * 1 ≤ 2 ^ (t + 1) * u := Nat.mul_le_mul_left _ (by omega)
          rw [if_neg (show ¬(2 ^ (t + 1) * u + r < 2 ^ t) from by omega),
            mod_lo_t t u r hr,
            if_neg (show ¬(2 ^ (t + 1) * u + r + 2 ^ t < 2 ^ t) from by omega),
            mod_hi_t t u r hr,
            if_neg (show ¬(2 ^ (t + 1) * u + r + 2 ^ t < 2 ^ (t + 1)) from by omega),
            mod_hi_T t u r hr,
            if_neg (show ¬(r + 2 ^ t = 0) from by omega)]
          by_cases hr0 : r = 0
          · rw [if_pos hr0]
            decide
          · rw [if_neg hr0]
            decide

/-! ## The walsh transform of the zero-patched parity array

Input: 0 at cell 0, 1 at even cells, 65534 at odd cells.  After `t` stages
(`1 ≤ t ≤ 15`): cell 1 holds `2^t - 1`, the other cells below `2^t` hold
65534, cells `≡ 1 (mod 2^t)` above hold `2^t`, and the rest hold 65535. -/

theorem walshB2_inv (y : Nat)
    (hy : ∀ c, c < FIELD_SIZE → aget y c =
      if c = 0 then 0 else if c % 2 = 0 then 1 else 65534) :
    ∀ t, 1 ≤ t → t ≤ 15 → ∀ c, c < FIELD_SIZE →
      aget (walshStages t y) c =
        if c = 1 then 2 ^ t - 1
        else if c < 2 ^ t then 65534
        else if c % 2 ^ t = 1 then 2 ^ t
        else 65535 := by
  intro t
  induction t with
  | zero => intro h1; exact absurd h1 (by omega)
  | succ t ih =>
    intro _ ht c hc
    rw [walshStages_succ]
    rcases Nat.eq_zero_or_pos t with ht0 | ht0
    · subst ht0
      have e1 : (2 : Nat) ^ (0 + 1) = 2 := by norm_num
      have e0 : (2 : Nat) ^ 0 = 1 := by norm_num
      rcases cellF_cases 0 c (by omega) hc with ⟨u, r, hu, hr, hceq⟩ | ⟨u, r, hu, hr, hceq⟩
      · have hr0 : r = 0 := by omega
        subst hr0
        subst hceq
        rw [stageF_cell_lo 0 u 0 _ (by omega) hu (by omega),
          show walshStages 0 y = y from rfl,
          hy (2 ^ (0 + 1) * u + 0) (by have := cellF_lt 0 u 0 (by omega) hu (by omega); omega),
          hy (2 ^ (0 + 1) * u + 0 + 2 ^ 0) (cellF_lt 0 u 0 (by omega) hu (by omega)),
          e1, e0]
        by_cases hu0 : u = 0
        · subst hu0
          decide
        · rw [if_neg (show ¬(2 * u + 0 = 0) from by omega),
            if_pos (show (2 * u + 0) % 2 = 0 from by omega),
            if_neg (show ¬(2 * u + 0 + 1 = 0) from by omega),
            if_neg (show ¬((2 * u + 0 + 1) % 2 = 0) from by omega),
            if_neg (show ¬(2 * u + 0 = 1) from by omega),
            if_neg (show ¬(2 * u + 0 < 2) from by omega),
            if_neg (show ¬((2 * u + 0) % 2 = 1) from by omega)]
          decide
      · have hr0 : r = 0 := by omega
        subst hr0
        subst hceq
        rw [stageF_cell_hi 0 u 0 _ (by omega) hu (by omega),
          show walshStages 0 y = y from rfl,
          hy (2 ^ (0 + 1) * u + 0) (by have := cellF_lt 0 u 0 (by omega) hu (by omega); omega),
          hy (2 ^ (0 + 1) * u + 0 + 2 ^ 0) (cellF_lt 0 u 0 (by omega) hu (by omega)),
          e1, e0]
        by_cases hu0 : u = 0
        · subst hu0
          decide
        · rw [if_neg (show ¬(2 * u + 0 = 0) from by omega),
            if_pos (show (2 * u + 0) % 2 = 0 from by omega),
            if_neg (show ¬(2 * u + 0 + 1 = 0) from by omega),
            if_neg (show ¬((2 * u + 0 + 1) % 2 = 0) from by omega),
            if_neg (show ¬(2 * u + 0 + 1 = 1) from by omega),
            if_neg (show ¬(2 * u + 0 + 1 < 2) from by omega),
            if_pos (show (2 * u + 0 + 1) % 2 = 1 from by omega)]
          decide
    · have ht' : t < 16 := by omega
      have IH := ih ht0 (by omega)
      have hp := Nat.two_pow_pos t
      have hA := Nat.two_pow_pos (t + 1)
      have hps : (2 : Nat) ^ (t + 1) = 2 ^ t * 2 := pow_succ 2 t
      have hW2 : (2 : Nat) ≤ 2 ^ t := by
        calc (2 : Nat) = 2 ^ 1 := by norm_num
          _ ≤ 2 ^ t := Nat.pow_le_pow_right (by omega) ht0
      have hbound : (2 : Nat) ^ (t + 1) ≤ 32768 := by
        calc (2 : Nat) ^ (t + 1) ≤ 2 ^ 15 := Nat.pow_le_pow_right (by omega) (by omega)
          _ = 32768 := by norm_num
      rcases cellF_cases t c ht' hc with ⟨u, r, hu, hr, hceq⟩ | ⟨u, r, hu, hr, hceq⟩
      · subst hceq
        rw [stageF_cell_lo t u r _ ht' hu hr,
          IH (2 ^ (t + 1) * u + r) (by have := cellF_lt t u r ht' hu hr; omega),
          IH (2 ^ (t + 1) * u + r + 2 ^ t) (cellF_lt t u r ht' hu hr),
          if_neg (show ¬(2 ^ (t + 1) * u + r + 2 ^ t = 1) from by omega),
          if_neg (show ¬(2 ^ (t + 1) * u + r + 2 ^ t < 2 ^ t) from by omega),
          mod_hi_t t u r hr]
        by_cases hu0 : u = 0
        · subst hu0
          by_cases hr1 : r = 1
          · rw [if_pos (show 2 ^ (t + 1) * 0 + r = 1 from by omega),
              if_pos (show 2 ^ (t + 1) * 0 + r = 1 from by omega),
              if_pos hr1,
              foldM_small (by omega)]
            omega
          · rw [if_neg (show ¬(2 ^ (t + 1) * 0 + r = 1) from by omega),
              if_neg (show ¬(2 ^ (t + 1) * 0 + r = 1) from by omega),
              if_pos (show 2 ^ (t + 1) * 0 + r < 2 ^ t from by omega),
              if_neg hr1,
              if_pos (show 2 ^ (t + 1) * 0 + r < 2 ^ (t + 1) from by omega)]
            decide
        · have hle : 2 ^ (t + 1) * 1 ≤ 2 ^ (t + 1) * u := Nat.mul_le_mul_left _ (by omega)
          rw [if_neg (show ¬(2 ^ (t + 1) * u + r = 1) from by omega),
            if_neg (show ¬(2 ^ (t + 1) * u + r = 1) from by omega),
            if_neg (show ¬(2 ^ (t + 1) * u + r < 2 ^ t) from by omega),
            mod_lo_t t u r hr,
            if_neg (show ¬(2 ^ (t + 1) * u + r < 2 ^ (t + 1)) from by omega),
            mod_lo_T t u r hr]
          by_cases hr1 : r = 1
          · rw [if_pos hr1, if_pos hr1, foldM_small (by omega)]
            omega
          · rw [if_neg hr1, if_neg hr1]
            decide
      · subst hceq
        rw [stageF_cell_hi t u r _ ht' hu hr,
          IH (2 ^ (t + 1) * u + r) (by have := cellF_lt t u r ht' hu hr; omega),
          IH (2 ^ (t + 1) * u + r + 2 ^ t) (cellF_lt t u r ht' hu hr),
          if_neg (show ¬(2 ^ (t + 1) * u + r + 2 ^ t = 1) from by omega),
          if_neg (show ¬(2 ^ (t + 1) * u + r + 2 ^ t = 1) from by omega),
          if_neg (show ¬(2 ^ (t + 1) * u + r + 2 ^ t < 2 ^ t) from by omega),
          mod_hi_t t u r hr]
        by_cases hu0 : u = 0
        · subst hu0
          by_cases hr1 : r = 1
          · rw [if_pos (show 2 ^ (t + 1) * 0 + r = 1 from by omega),
              if_pos hr1,
              if_pos (show 2 ^ (t + 1) * 0 + r + 2 ^ t < 2 ^ (t + 1) from by omega),
              moduloVal,
              show 2 ^ t - 1 + 65535 - 2 ^ t = 65534 from by omega]
            decide
          · rw [if_neg (show ¬(2 ^ (t + 1) * 0 + r = 1) from by omega),
              if_pos (show 2 ^ (t + 1) * 0 + r < 2 ^ t from by omega),
              if_neg hr1,
              if_pos (show 2 ^ (t + 1) * 0 + r + 2 ^ t < 2 ^ (t + 1) from by omega)]
            decide
        · have hle : 2 ^ (t + 1) * 1 ≤ 2 ^ (t + 1) * u := Nat.mul_le_mul_left _ (by omega)
          rw [if_neg (show ¬(2 ^ (t + 1) * u + r = 1) from by omega),
            if_neg (show ¬(2 ^ (t + 1) * u + r < 2 ^ t) from by omega),
            mod_lo_t t u r hr,
            if_neg (show ¬(2 ^ (t + 1) * u + r + 2 ^ t < 2 ^ (t + 1)) from by omega),
            mod_hi_T t u r hr,
            if_neg (show ¬(r + 2 ^ t = 1) from by omega)]
          by_cases hr1 : r = 1
          · rw [if_pos hr1, moduloVal,
              show (2 : Nat) ^ t + 65535 - 2 ^ t = 65535 from by omega]
            decide
          · rw [if_neg hr1]
            decide

/-! ## decode_init at n = 1, fully unfolded -/

theorem decode_init_one (t : Tables) (er : Nat → Bool) (lw2 : Nat) (her : er 0 = false) :
    decode_init t er lw2 1
      = walsh (aset (walsh (aset lw2 0 0) FIELD_SIZE) 0
          (aget (walsh (aset lw2 0 0) FIELD_SIZE) 0 * aget t.lwT 0 % MODULO))
        FIELD_SIZE := by
  simp only [decode_init]
  rw [seqUp_one, seqUp_one, seqUp_one, her]
  simp only [Bool.false_eq_true, if_false, cond_false]

/-- The last stage of a full walsh pass on an input matching the
zero-patched parity pattern leaves 65534 in cell 0. -/
theorem walshB2_final (y : Nat)
    (hy : ∀ c, c < FIELD_SIZE → aget y c =
      if c = 0 then 0 else if c % 2 = 0 then 1 else 65534) :
    aget (walshStages 16 y) 0 = 65534 := by
  have hS15 := walshB2_inv y hy 15 (by omega) (by omega)
  rw [show (16 : Nat) = 15 + 1 from rfl, walshStages_succ]
  have H := stageF_cell_lo 15 0 0 (walshStages 15 y) (by omega) (by norm_num) (by norm_num)
  simp only [Nat.mul_zero, Nat.add_zero, Nat.zero_add] at H
  rw [H, hS15 0 (by decide), hS15 (2 ^ 15) (by decide),
    if_neg (show ¬((0 : Nat) = 1) from by decide),
    if_pos (show (0 : Nat) < 2 ^ 15 from by decide),
    if_neg (show ¬((2 : Nat) ^ 15 = 1) from by decide),
    if_neg (show ¬((2 : Nat) ^ 15 < 2 ^ 15) from by decide),
    if_neg (show ¬((2 : Nat) ^ 15 % 2 ^ 15 = 1) from by decide)]
  decide

/-- Run A of the C10 scenario: zero scratch array. -/
theorem decodeA_cell0 :
    aget (decode_init tables0 (fun _ => false) 0 1) 0 = 65535 := by
  rw [decode_init_one tables0 (fun _ => false) 0 rfl,
    show aset 0 0 0 = 0 from by decide,
    walsh_eq_stages, walsh_eq_stages, tables0_lwT, aget_zero, Nat.mul_zero,
    Nat.zero_mod]
  have hb0 : aget (walshStages 16 0) 0 = 0 := by
    rw [walshZ_inv 16 (by omega) 0 (by decide),
      if_pos (show (0 : Nat) % 2 ^ 16 = 0 from by decide)]
  have hasetb : aset (walshStages 16 0) 0 0 = walshStages 16 0 := by
    calc aset (walshStages 16 0) 0 0
        = aset (walshStages 16 0) 0 (aget (walshStages 16 0) 0) := by rw [hb0]
      _ = walshStages 16 0 := aset_noop _ _
  rw [hasetb]
  have hx : ∀ c, c < FIELD_SIZE →
      aget (walshStages 16 0) c = if c = 0 then 0 else 65535 := by
    intro c hc
    rw [walshZ_inv 16 (by omega) c hc,
      Nat.mod_eq_of_lt (show c < 2 ^ 16 from by rw [← fieldSize_pow]; exact hc)]
  rw [walshA2_inv (walshStages 16 0) hx 16 (by omega) 0 (by decide),
    if_neg (show ¬((0 : Nat) = 2 ^ 16 - 1) from by decide)]

/-- Run B of the C10 scenario: scratch array holding 1 in cell 1. -/
theorem decodeB_cell0 :
    aget (decode_init tables0 (fun _ => false) (aset 0 1 1) 1) 0 = 65534 := by
  rw [decode_init_one tables0 (fun _ => false) (aset 0 1 1) rfl,
    walsh_eq_stages, walsh_eq_stages, tables0_lwT, aget_zero, Nat.mul_zero,
    Nat.zero_mod]
  have hxa : ∀ c, c < FIELD_SIZE →
      aget (aset (aset 0 1 1) 0 0) c = if c = 1 then 1 else 0 := by
    intro c hc
    by_cases hc0 : c = 0
    · subst hc0
      rw [aget_aset_self _ _ (by norm_num), if_neg (by omega)]
    · rw [aget_aset_ne _ _ (by norm_num) (fun h => hc0 h.symm)]
      by_cases hc1 : c = 1
      · subst hc1
        rw [aget_aset_self _ _ (by norm_num), if_pos rfl]
      · rw [aget_aset_ne _ _ (by norm_num) (fun h => hc1 h.symm), aget_zero,
          if_neg hc1]
  have hB1 := walshB1_inv (aset (aset 0 1 1) 0 0) hxa 16 (by omega) (by omega)
  have hy : ∀ c, c < FIELD_SIZE →
      aget (aset (walshStages 16 (aset (aset 0 1 1) 0 0)) 0 0) c
        = if c = 0 then 0 else if c % 2 = 0 then 1 else 65534 := by
    intro c hc
    by_cases hc0 : c = 0
    · subst hc0
      rw [aget_aset_self _ _ (by norm_num), if_pos rfl]
    · rw [aget_aset_ne _ _ (by norm_num) (fun h => hc0 h.symm), hB1 c hc,
        if_pos (show c < 2 ^ 16 from by rw [← fieldSize_pow]; exact hc),
        if_neg hc0]
  exact walshB2_final _ hy

/-! ## C10: agreement propagation through decode_init -/

/-- Parallel loops preserving an index-dependent relation. -/
theorem seqUp_rel_indexed {α β : Type} (R : Nat → α → β → Prop) (f : Nat → α → α)
    (g : Nat → β → β) :
    ∀ (s n : Nat), (∀ i, s ≤ i → i < s + n → ∀ a b, R i a b → R (i + 1) (f i a) (g i b)) →
      ∀ a b, R s a b → R (s + n) (seqUp f s n a) (seqUp g s n b) := by
  intro s n
  induction n generalizing s with
  | zero => intro _ a b h; exact h
  | succ k ih =>
    intro hfg a b h
    rw [seqUp_succ, seqUp_succ]
    have H := ih (s + 1) (fun i hi1 hi2 => hfg i (by omega) (by omega)) (f s a) (g s b)
      (hfg s (by omega) (by omega) a b h)
    rw [show s + (k + 1) = s + 1 + k from by omega]
    exact H

theorem wBfly_agree (dep i : Nat) (hdep : 0 < dep) (x y : Nat)
    (h : ∀ c, c < FIELD_SIZE → aget x c = aget y c) (hifs : i + dep < FIELD_SIZE) :
    ∀ c, c < FIELD_SIZE → aget (wBfly dep i x) c = aget (wBfly dep i y) c := by
  intro c hc
  by_cases hci : c = i
  · subst hci
    rw [wBfly_cell_lo dep c x hdep, wBfly_cell_lo dep c y hdep, h c hc,
      h (c + dep) (by omega)]
  · by_cases hchi : c = i + dep
    · subst hchi
      rw [wBfly_cell_hi dep i x hdep, wBfly_cell_hi dep i y hdep, h i (by omega),
        h (i + dep) hc]
    · rw [wBfly_frame dep i x c hci hchi, wBfly_frame dep i y c hci hchi]
      exact h c hc

theorem wStage_agree (dep : Nat) (hdep : 0 < dep) (x y : Nat)
    (h : ∀ c, c < FIELD_SIZE → aget x c = aget y c) :
    ∀ c, c < FIELD_SIZE →
      aget (wStage FIELD_SIZE dep x) c = aget (wStage FIELD_SIZE dep y) c := by
  have hDU : (dep <<< 1) * (FIELD_SIZE / (dep <<< 1)) ≤ FIELD_SIZE := by
    rw [Nat.mul_comm]
    exact Nat.div_mul_le_self _ _
  have hdd : (dep <<< 1) = dep * 2 := by rw [Nat.shiftLeft_eq, pow_one]
  unfold wStage
  refine seqUp_rel_ranged (fun a b => ∀ c, c < FIELD_SIZE → aget a c = aget b c) _ _
    0 (FIELD_SIZE / (dep <<< 1)) ?_ x y h
  intro u hu1 hu2 a b hR
  have hub : (dep <<< 1) * (u + 1) ≤ (dep <<< 1) * (FIELD_SIZE / (dep <<< 1)) :=
    Nat.mul_le_mul_left _ (by omega)
  have hexp : (dep <<< 1) * (u + 1) = (dep <<< 1) * u + (dep <<< 1) := by ring
  refine seqUp_rel_ranged (fun a b => ∀ c, c < FIELD_SIZE → aget a c = aget b c)
    (wBfly dep) (wBfly dep) ((dep <<< 1) * u) dep ?_ a b hR
  intro i hi1 hi2 a2 b2 hR2
  exact wBfly_agree dep i hdep a2 b2 hR2 (by omega)

theorem walsh_agree (x y : Nat)
    (h : ∀ c, c < FIELD_SIZE → aget x c = aget y c) :
    ∀ c, c < FIELD_SIZE →
      aget (walsh x FIELD_SIZE) c = aget (walsh y FIELD_SIZE) c := by
  unfold walsh
  refine seqUp_rel_ranged (fun a b => ∀ c, c < FIELD_SIZE → aget a c = aget b c) _ _
    0 (lg FIELD_SIZE) ?_ x y h
  intro t ht1 ht2 a b hR
  exact wStage_agree (1 <<< t)
    (by rw [Nat.one_shiftLeft]; exact Nat.two_pow_pos t) a b hR

theorem maskLoop_agree (er : Nat → Bool) (n x y : Nat) (_hn : n ≤ FIELD_SIZE)
    (hxy : ∀ c, n ≤ c → c < FIELD_SIZE → aget x c = aget y c) :
    ∀ c, c < FIELD_SIZE →
      aget (seqUp (fun i w => aset w i (cond (er i) 1 0)) 0 n x) c
        = aget (seqUp (fun i w => aset w i (cond (er i) 1 0)) 0 n y) c := by
  have hbase : ∀ c, c < FIELD_SIZE → (c < 0 ∨ n ≤ c) → aget x c = aget y c := by
    intro c hc hor
    rcases hor with h | h
    · omega
    · exact hxy c h hc
  have hstep : ∀ i, 0 ≤ i → i < 0 + n → ∀ a b,
      (∀ c, c < FIELD_SIZE → (c < i ∨ n ≤ c) → aget a c = aget b c) →
      ∀ c, c < FIELD_SIZE → (c < i + 1 ∨ n ≤ c) →
        aget (aset a i (cond (er i) 1 0)) c = aget (aset b i (cond (er i) 1 0)) c := by
    intro i _ hi a b hR c hc hor
    have hv : cond (er i) 1 0 < 2 ^ 32 := by cases er i <;> decide
    by_cases hci : i = c
    · subst hci
      rw [aget_aset_self _ _ hv, aget_aset_self _ _ hv]
    · rw [aget_aset_ne _ _ hv hci, aget_aset_ne _ _ hv hci]
      exact hR c hc (by omega)
  have H := seqUp_rel_indexed
    (fun i a b => ∀ c, c < FIELD_SIZE → (c < i ∨ n ≤ c) → aget a c = aget b c)
    (fun i w => aset w i (cond (er i) 1 0)) (fun i w => aset w i (cond (er i) 1 0))
    0 n hstep x y hbase
  exact fun c hc => H c hc (by omega)

theorem multLoop_agree (t : Tables) (n x y : Nat) (_hn : n ≤ FIELD_SIZE)
    (h : ∀ c, c < FIELD_SIZE → aget x c = aget y c) :
    ∀ c, c < FIELD_SIZE →
      aget (seqUp (fun i w => aset w i (aget w i * aget t.lwT i % MODULO)) 0 n x) c
        = aget (seqUp (fun i w => aset w i (aget w i * aget t.lwT i % MODULO)) 0 n y) c := by
  refine seqUp_rel_ranged (fun a b => ∀ c, c < FIELD_SIZE → aget a c = aget b c)
    _ _ 0 n ?_ x y h
  intro i hi1 hi2 a b hR c hc
  have h32 : (2 : Nat) ^ 32 = 4294967296 := by norm_num
  have hM := moduloVal
  have hva : aget a i * aget t.lwT i % MODULO < 2 ^ 32 := by
    have := Nat.mod_lt (aget a i * aget t.lwT i) (show 0 < MODULO from by decide)
    omega
  have hvb : aget b i * aget t.lwT i % MODULO < 2 ^ 32 := by
    have := Nat.mod_lt (aget b i * aget t.lwT i) (show 0 < MODULO from by decide)
    omega
  by_cases hci : i = c
  · subst hci
    rw [aget_aset_self _ _ hva, aget_aset_self _ _ hvb, hR i (by omega)]
  · rw [aget_aset_ne _ _ hva hci, aget_aset_ne _ _ hvb hci]
    exact hR c hc

theorem finalLoop_agree (er : Nat → Bool) (n x y : Nat) (_hn : n ≤ FIELD_SIZE)
    (h : ∀ c, c < FIELD_SIZE → aget x c = aget y c) :
    ∀ c, c < FIELD_SIZE →
      aget (seqUp (fun i w => if er i then aset w i (MODULO - aget w i) else w) 0 n x) c
        = aget (seqUp (fun i w => if er i then aset w i (MODULO - aget w i) else w) 0 n y) c := by
  refine seqUp_rel_ranged (fun a b => ∀ c, c < FIELD_SIZE → aget a c = aget b c)
    _ _ 0 n ?_ x y h
  intro i hi1 hi2 a b hR c hc
  have h32 : (2 : Nat) ^ 32 = 4294967296 := by norm_num
  have hM := moduloVal
  by_cases hE : er i
  · rw [if_pos hE, if_pos hE]
    have hva : MODULO - aget a i < 2 ^ 32 := by omega
    have hvb : MODULO - aget b i < 2 ^ 32 := by omega
    by_cases hci : i = c
    · subst hci
      rw [aget_aset_self _ _ hva, aget_aset_self _ _ hvb, hR i (by omega)]
    · rw [aget_aset_ne _ _ hva hci, aget_aset_ne _ _ hvb hci]
      exact hR c hc
  · rw [if_neg hE, if_neg hE]
    exact hR c hc

/-- C10 (amended): the first `n` outputs of `decode_init` depend only on the
erasure mask, the log_walsh table and the scratch cells below `n` inside the
array bounds: two initial scratch arrays that agree on cells `n ≤ c <
FIELD_SIZE` (but may differ below `n`) yield identical first-`n` results.
The original claim — that the initial contents of cells `n .. 2^16` never
matter — is refuted by `C10_counterexample`. -/
theorem C10_amended (t : Tables) (er : Nat → Bool) (n : Nat) (hn : n ≤ FIELD_SIZE)
    (x y : Nat) (hxy : ∀ c, n ≤ c → c < FIELD_SIZE → aget x c = aget y c) :
    ∀ c, c < n → aget (decode_init t er x n) c = aget (decode_init t er y n) c := by
  intro c hc
  simp only [decode_init]
  exact finalLoop_agree er n _ _ hn
    (walsh_agree _ _ (multLoop_agree t n _ _ hn
      (walsh_agree _ _ (maskLoop_agree er n x y hn hxy))))
    c (by omega)

/-- C10 witness: `n = 1`, scratch arrays 0 and `aset 0 0 5` (differing only
in cell 0, below `n`), all-false mask: equal first cells. -/
theorem C10_witness :
    (1 : Nat) ≤ FIELD_SIZE ∧
    aget (decode_init tables0 (fun _ => false) 0 1) 0
      = aget (decode_init tables0 (fun _ => false) (aset 0 0 5) 1) 0 :=
  ⟨by decide, C10_amended tables0 (fun _ => false) 1 (by decide) 0 (aset 0 0 5)
    (fun c hc1 hc2 => by rw [aget_aset_ne _ _ (by norm_num) (by omega)]) 0 (by omega)⟩

/-- C10 counterexample: with `n = 1` and the all-false mask, `decode_init`
run on the all-zero scratch array leaves 65535 in cell 0, but run on a
scratch array whose (out-of-range) cell 1 holds 1 it leaves 65534: the
first-`n` outputs do depend on the initial contents of cells `n .. 2^16`. -/
theorem C10_counterexample :
    aget (decode_init tables0 (fun _ => false) 0 1) 0 = 65535 ∧
    aget (decode_init tables0 (fun _ => false) (aset 0 1 1) 1) 0 = 65534 ∧
    aget (decode_init tables0 (fun _ => false) 0 1) 0
      ≠ aget (decode_init tables0 (fun _ => false) (aset 0 1 1) 1) 0 := by
  refine ⟨decodeA_cell0, decodeB_cell0, ?_⟩
  rw [decodeA_cell0, decodeB_cell0]
  decide

/-! ## C6: the LFSR state walk of init()

`lfsrStep` is injective on 16-bit states, never reaches 0 from a nonzero
state, and (checked in the kernel through the packed min-scan) never
returns to the seed 1 in fewer than 65535 steps; hence `i ↦ state_i` is
injective on `[0, 65535)` and, by cardinality, onto the nonzero 16-bit
values. -/

theorem lfsrStep_lt (st : Nat) : st < 65536 → lfsrStep st < 65536 := by
  intro h
  unfold lfsrStep
  rw [show FIELD_BITS - 1 = 15 from rfl]
  have e16 : (2 : Nat) ^ 16 = 65536 := by norm_num
  have hd : st >>> 15 = st / 32768 := by
    rw [Nat.shiftRight_eq_div_pow]
  by_cases h15 : st >>> 15 = 0
  · rw [if_neg (fun hh => hh h15), Nat.shiftLeft_eq, pow_one]
    omega
  · rw [if_pos h15]
    have h1 : st &&& 32767 ≤ 32767 := Nat.and_le_right
    have h2 : (st &&& 32767) <<< 1 < 2 ^ 16 := by
      rw [Nat.shiftLeft_eq, pow_one]
      omega
    have h3 : maskPoly < 2 ^ 16 := by decide
    have := Nat.xor_lt_two_pow h2 h3
    omega

theorem lfsrStep_ne_zero (st : Nat) : st ≠ 0 → st < 65536 → lfsrStep st ≠ 0 := by
  intro h0 h
  unfold lfsrStep
  rw [show FIELD_BITS - 1 = 15 from rfl]
  by_cases h15 : st >>> 15 = 0
  · rw [if_neg (fun hh => hh h15), Nat.shiftLeft_eq, pow_one]
    omega
  · rw [if_pos h15]
    intro hz
    have hb := congrArg (fun z => z.testBit 0) hz
    simp only [Nat.testBit_xor, Nat.testBit_shiftLeft, Nat.zero_testBit,
      show decide (1 ≤ 0) = false from rfl, Bool.false_and, Bool.false_xor] at hb
    exact absurd hb (by decide)

/-- The branch-free LFSR step agrees with the real one on 16-bit states. -/
theorem lfsrStepB_eq (st : Nat) : st < 65536 → lfsrStepB st = lfsrStep st := by
  intro h
  unfold lfsrStepB lfsrStep
  rw [show FIELD_BITS - 1 = 15 from rfl]
  have e15 : (2 : Nat) ^ 15 = 32768 := by norm_num
  have hd : st >>> 15 = st / 32768 := by
    rw [Nat.shiftRight_eq_div_pow]
  by_cases h15 : st >>> 15 = 0
  · rw [if_neg (fun hh => hh h15), h15, Nat.mul_zero, Nat.xor_zero]
    have hm : st &&& 32767 = st % 32768 := by
      rw [show (32767 : Nat) = 2 ^ 15 - 1 from by norm_num,
        Nat.and_pow_two_sub_one_eq_mod, e15]
    have hlt : st < 32768 := by omega
    rw [hm, Nat.mod_eq_of_lt hlt]
  · rw [if_pos h15]
    have h1 : st >>> 15 = 1 := by omega
    rw [h1, Nat.mul_one]

theorem lfsrStep_inj (a b : Nat) : a < 65536 → b < 65536 →
    lfsrStep a = lfsrStep b → a = b := by
  intro ha hb h
  unfold lfsrStep at h
  rw [show FIELD_BITS - 1 = 15 from rfl] at h
  have e15 : (2 : Nat) ^ 15 = 32768 := by norm_num
  have hda : a >>> 15 = a / 32768 := by
    rw [Nat.shiftRight_eq_div_pow]
  have hdb : b >>> 15 = b / 32768 := by
    rw [Nat.shiftRight_eq_div_pow]
  have hma : a &&& 32767 = a % 32768 := by
    rw [show (32767 : Nat) = 2 ^ 15 - 1 from by norm_num,
      Nat.and_pow_two_sub_one_eq_mod, e15]
  have hmb : b &&& 32767 = b % 32768 := by
    rw [show (32767 : Nat) = 2 ^ 15 - 1 from by norm_num,
      Nat.and_pow_two_sub_one_eq_mod, e15]
  by_cases h15a : a >>> 15 = 0 <;> by_cases h15b : b >>> 15 = 0
  · rw [if_neg (fun hh => hh h15a), if_neg (fun hh => hh h15b),
      Nat.shiftLeft_eq, Nat.shiftLeft_eq, pow_one] at h
    omega
  · rw [if_neg (fun hh => hh h15a), if_pos h15b] at h
    exfalso
    have hbb := congrArg (fun z => z.testBit 0) h
    simp only [Nat.testBit_xor, Nat.testBit_shiftLeft,
      show decide (1 ≤ 0) = false from rfl, Bool.false_and, Bool.false_xor] at hbb
    exact absurd hbb (by decide)
  · rw [if_pos h15a, if_neg (fun hh => hh h15b)] at h
    exfalso
    have hbb := congrArg (fun z => z.testBit 0) h
    simp only [Nat.testBit_xor, Nat.testBit_shiftLeft,
      show decide (1 ≤ 0) = false from rfl, Bool.false_and, Bool.false_xor] at hbb
    exact absurd hbb (by decide)
  · rw [if_pos h15a, if_pos h15b] at h
    have h2 := congrArg (fun z => z ^^^ maskPoly) h
    simp only [Nat.xor_assoc, Nat.xor_self, Nat.xor_zero] at h2
    rw [Nat.shiftLeft_eq, Nat.shiftLeft_eq, pow_one, hma, hmb] at h2
    omega

theorem lfsrIter_succ (d st : Nat) : lfsrIter (d + 1) st = lfsrIter d (lfsrStep st) := rfl

theorem lfsrIter_add (a : Nat) : ∀ (b st : Nat),
    lfsrIter (a + b) st = lfsrIter b (lfsrIter a st) := by
  induction a with
  | zero => intro b st; rw [Nat.zero_add]; rfl
  | succ k ih =>
    intro b st
    rw [show k + 1 + b = (k + b) + 1 from by omega, lfsrIter_succ, ih b (lfsrStep st),
      ← lfsrIter_succ]

theorem lfsrIter_valid (d : Nat) : ∀ st, st ≠ 0 → st < 65536 →
    lfsrIter d st ≠ 0 ∧ lfsrIter d st < 65536 := by
  induction d with
  | zero => intro st h0 h1; exact ⟨h0, h1⟩
  | succ k ih =>
    intro st h0 h1
    rw [lfsrIter_succ]
    exact ih (lfsrStep st) (lfsrStep_ne_zero st h0 h1) (lfsrStep_lt st h1)

theorem lfsrIter_inj (a : Nat) : ∀ x y, x < 65536 → y < 65536 →
    lfsrIter a x = lfsrIter a y → x = y := by
  induction a with
  | zero => intro x y _ _ h; exact h
  | succ k ih =>
    intro x y hx hy h
    rw [lfsrIter_succ, lfsrIter_succ] at h
    exact lfsrStep_inj x y hx hy (ih _ _ (lfsrStep_lt x hx) (lfsrStep_lt y hy) h)

/-! ### The binary-split scan computes `scanIter` -/

theorem scanP_succ (k s : Nat) : scanP (k + 1) s = scanP k (scanP k s) := by
  show Nat.casesOn (motive := fun _ => Nat) (scanP k s) (scanP k 0)
    (fun m => scanP k (Nat.succ m)) = scanP k (scanP k s)
  rcases h : scanP k s with _ | m
  · simp only [h]
    rfl
  · simp only [h]

theorem scanIter_succ (n s : Nat) : scanIter (n + 1) s = scanIter n (scanStep s) := rfl

theorem scanIter_add (a : Nat) : ∀ (b s : Nat),
    scanIter (a + b) s = scanIter b (scanIter a s) := by
  induction a with
  | zero => intro b s; rw [Nat.zero_add]; rfl
  | succ k ih =>
    intro b s
    rw [show k + 1 + b = (k + b) + 1 from by omega, scanIter_succ, ih b (scanStep s),
      ← scanIter_succ]

theorem scanP_eq (k : Nat) : ∀ s, scanP k s = scanIter (2 ^ k) s := by
  induction k with
  | zero =>
    intro s
    rw [pow_zero]
    rfl
  | succ k ih =>
    intro s
    rw [scanP_succ, ih, ih, pow_succ, show (2 : Nat) ^ k * 2 = 2 ^ k + 2 ^ k from by ring,
      scanIter_add]

theorem scan65534_eq (s : Nat) : scan65534 s = scanIter 65534 s := by
  unfold scan65534
  rw [scanP_eq, scanP_eq, scanP_eq, scanP_eq, scanP_eq, scanP_eq, scanP_eq, scanP_eq,
    scanP_eq, scanP_eq, scanP_eq, scanP_eq, scanP_eq, scanP_eq, scanP_eq]
  norm_num
  rw [show (65534 : Nat) = 2 + (4 + (8 + (16 + (32 + (64 + (128 + (256 + (512 + (1024 +
      (2048 + (4096 + (8192 + (16384 + 32768))))))))))))) from by norm_num]
  rw [scanIter_add, scanIter_add, scanIter_add, scanIter_add, scanIter_add, scanIter_add,
    scanIter_add, scanIter_add, scanIter_add, scanIter_add, scanIter_add, scanIter_add,
    scanIter_add, scanIter_add]

/-! ### What one packed scan step does -/

theorem scanStep_pack (st m : Nat) (hst : st < 65536) :
    scanStep (st + (m <<< 16)) = lfsrStepB st + ((m - (m - lfsrStepB st)) <<< 16) := by
  have e16 : (2 : Nat) ^ 16 = 65536 := by norm_num
  unfold scanStep
  have h1 : (st + (m <<< 16)) &&& 65535 = st := by
    rw [Nat.shiftLeft_eq, show (65535 : Nat) = 2 ^ 16 - 1 from by norm_num,
      Nat.and_pow_two_sub_one_eq_mod, Nat.add_mul_mod_self_right,
      Nat.mod_eq_of_lt (by omega)]
  have h2 : (st + (m <<< 16)) >>> 16 = m := by
    rw [Nat.shiftLeft_eq, Nat.shiftRight_eq_div_pow,
      Nat.add_mul_div_right _ _ (Nat.two_pow_pos 16), Nat.div_eq_of_lt (by omega),
      Nat.zero_add]
  rw [h1, h2]

theorem scanIter_spec (n : Nat) : ∀ st m, st ≠ 0 → st < 65536 → m ≤ 65535 →
    ∃ m2, scanIter n (st + (m <<< 16)) = lfsrIter n st + (m2 <<< 16) ∧ m2 ≤ m ∧
      ∀ d, 1 ≤ d → d ≤ n → m2 ≤ lfsrIter d st := by
  induction n with
  | zero =>
    intro st m h0 hlt hm
    exact ⟨m, rfl, le_refl m, fun d hd1 hd2 => absurd hd1 (by omega)⟩
  | succ k ih =>
    intro st m h0 hlt hm
    rw [scanIter_succ, scanStep_pack st m hlt, lfsrStepB_eq st hlt]
    have hv := lfsrStep_lt st hlt
    have hz := lfsrStep_ne_zero st h0 hlt
    obtain ⟨m2, heq, hle, hmin⟩ :=
      ih (lfsrStep st) (m - (m - lfsrStep st)) hz hv (by omega)
    refine ⟨m2, heq, by omega, ?_⟩
    intro d hd1 hd2
    cases d with
    | zero => omega
    | succ d2 =>
      rcases Nat.eq_zero_or_pos d2 with hd0 | hd0
      · subst hd0
        show m2 ≤ lfsrStep st
        omega
      · have hm2 := hmin d2 (by omega) (by omega)
        rw [← lfsrIter_succ] at hm2
        exact hm2

/-- Kernel evaluation of the packed min-scan: starting from state 1 with
running minimum 65535, after 65534 steps the state is 32790 and the
minimum over states 1..65534 is 2 (163862 = 32790 + 2 * 65536). -/
theorem scanKernel : scan65534 4294901761 = 163862 := by decide!

/-- No state in steps 1..65534 of the LFSR walk from seed 1 is 0 or 1. -/
theorem orbit_min : ∀ d, 1 ≤ d → d ≤ 65534 → 2 ≤ lfsrIter d 1 := by
  obtain ⟨m2, heq, hle, hmin⟩ :=
    scanIter_spec 65534 1 65535 (by omega) (by omega) (le_refl _)
  have hK : scanIter 65534 (1 + (65535 <<< 16)) = 163862 := by
    rw [← scan65534_eq, show (1 : Nat) + (65535 <<< 16) = 4294901761 from by decide]
    exact scanKernel
  rw [hK] at heq
  have hv := lfsrIter_valid 65534 1 (by omega) (by omega)
  have hsh : m2 <<< 16 = m2 * 65536 := by
    rw [Nat.shiftLeft_eq]
  rw [hsh] at heq
  have hm2 : m2 = 2 := by omega
  intro d h1 h2
  have := hmin d h1 h2
  omega

/-- The LFSR walk from seed 1 visits pairwise distinct states during its
first 65535 steps. -/
theorem orbit_inj (a b : Nat) : a < 65535 → b < 65535 →
    lfsrIter a 1 = lfsrIter b 1 → a = b := by
  have key : ∀ a b, a < b → b < 65535 → lfsrIter a 1 = lfsrIter b 1 → False := by
    intro a b hab hb h
    have hsplit : lfsrIter b 1 = lfsrIter (b - a) (lfsrIter a 1) := by
      have hh := lfsrIter_add a (b - a) 1
      rw [show a + (b - a) = b from by omega] at hh
      exact hh
    have hcomm : lfsrIter (b - a) (lfsrIter a 1) = lfsrIter a (lfsrIter (b - a) 1) := by
      rw [← lfsrIter_add a (b - a) 1, ← lfsrIter_add (b - a) a 1,
        show a + (b - a) = b - a + a from by omega]
    have h2 : lfsrIter a 1 = lfsrIter a (lfsrIter (b - a) 1) := by
      rw [h, hsplit, hcomm]
    have hval := lfsrIter_valid (b - a) 1 (by omega) (by omega)
    have h3 : 1 = lfsrIter (b - a) 1 :=
      lfsrIter_inj a 1 (lfsrIter (b - a) 1) (by omega) hval.2 h2
    have h4 := orbit_min (b - a) (by omega) (by omega)
    omega
  intro ha hb h
  rcases Nat.lt_trichotomy a b with hlt | heq | hgt
  · exact (key a b hlt hb h).elim
  · exact heq
  · exact (key b a hgt ha h.symm).elim

/-- Every nonzero 16-bit value is visited by the LFSR walk within the
first 65535 steps. -/
theorem orbit_surj (c : Nat) : 0 < c → c < 65536 → ∃ v, v < 65535 ∧ lfsrIter v 1 = c := by
  intro h0 hc
  have hsurj := Finset.surj_on_of_inj_on_of_card_le
    (fun a (_ : a ∈ Finset.range 65535) => lfsrIter a 1)
    (fun a ha => by
      have hv := lfsrIter_valid a 1 (by omega) (by omega)
      rw [Finset.mem_erase, Finset.mem_range]
      exact ⟨hv.1, hv.2⟩)
    (fun a1 a2 h1 h2 h => by
      rw [Finset.mem_range] at h1 h2
      exact orbit_inj a1 a2 h1 h2 h)
    (by
      rw [Finset.card_erase_of_mem (by rw [Finset.mem_range]; omega), Finset.card_range,
        Finset.card_range])
  obtain ⟨v, hv, heq⟩ := hsurj c (by
    rw [Finset.mem_erase, Finset.mem_range]
    exact ⟨by omega, hc⟩)
  rw [Finset.mem_range] at hv
  exact ⟨v, hv, heq.symm⟩

/-! ### The Cantor basis combination `basisXor` is F2-linear and injective

Linear independence of the 16 `Base` masks is certified by 16 dual
masks: `parN 16 (dual i &&& Base f)` is 1 exactly when `i = f`, a
256-case kernel check. -/

theorem fieldSizeVal : FIELD_SIZE = 65536 := rfl

theorem Base_lt16 (i : Nat) : Base i < 65536 := by
  by_cases h : i < 16
  · interval_cases i <;> decide
  · unfold Base
    rw [List.getD_eq_default]
    · norm_num
    · simp only [List.length_cons, List.length_nil]
      omega

theorem basisXor_lt (f : Nat) : ∀ m, basisXor f m < 65536 := by
  induction f with
  | zero => intro m; unfold basisXor; omega
  | succ k ih =>
    intro m
    unfold basisXor
    by_cases h : m.testBit k
    · rw [if_pos h]
      have h16 : (65536 : Nat) = 2 ^ 16 := by norm_num
      rw [h16]
      exact Nat.xor_lt_two_pow (by rw [← h16]; exact ih m) (by rw [← h16]; exact Base_lt16 k)
    · rw [if_neg h]
      exact ih m

theorem shiftRight_one_xor (x y : Nat) : (x ^^^ y) >>> 1 = x >>> 1 ^^^ y >>> 1 := by
  apply Nat.eq_of_testBit_eq
  intro j
  rw [Nat.testBit_shiftRight, Nat.testBit_xor, Nat.testBit_xor, Nat.testBit_shiftRight,
    Nat.testBit_shiftRight]

theorem parN_zero (f : Nat) : parN f 0 = 0 := by
  induction f with
  | zero => rfl
  | succ k ih =>
    unfold parN
    rw [Nat.zero_and, Nat.zero_shiftRight, ih, Nat.xor_zero]

theorem parN_xor (f : Nat) : ∀ x y, parN f (x ^^^ y) = parN f x ^^^ parN f y := by
  induction f with
  | zero =>
    intro x y
    show (0 : Nat) = 0 ^^^ 0
    rw [Nat.xor_zero]
  | succ k ih =>
    intro x y
    unfold parN
    rw [Nat.and_xor_distrib_right, shiftRight_one_xor, ih]
    rw [Nat.xor_assoc, Nat.xor_assoc]
    congr 1
    rw [← Nat.xor_assoc, ← Nat.xor_assoc, Nat.xor_comm (parN k (x >>> 1)) (y &&& 1)]

/-- The dual-mask certificate: `dual i` pairs to 1 with `Base i` and to 0
with every other basis mask. -/
theorem dualCert : ∀ i, i < 16 → ∀ f, f < 16 →
    parN 16 (dual i &&& Base f) = if i = f then 1 else 0 := by decide

theorem parN_basisXor (d : Nat) : ∀ f m, parN 16 (d &&& basisXor f m) = dualSum d f m := by
  intro f
  induction f with
  | zero =>
    intro m
    unfold basisXor dualSum
    rw [Nat.and_zero, parN_zero]
  | succ k ih =>
    intro m
    unfold basisXor dualSum
    by_cases h : m.testBit k
    · rw [if_pos h, if_pos h, Nat.and_xor_distrib_left, parN_xor, ih]
    · rw [if_neg h, if_neg h, ih]

theorem dualSum_extract (i : Nat) (hi : i < 16) (m : Nat) :
    ∀ f, f ≤ 16 → dualSum (dual i) f m = if i < f ∧ m.testBit i = true then 1 else 0 := by
  intro f
  induction f with
  | zero =>
    intro _
    rw [if_neg (fun hcon => absurd hcon.1 (by omega))]
    rfl
  | succ k ih =>
    intro hk
    have hcert := dualCert i hi k (by omega)
    unfold dualSum
    rw [ih (by omega)]
    by_cases hb : m.testBit k
    · rw [if_pos hb, hcert]
      by_cases hik : i = k
      · subst hik
        rw [if_neg (fun hcon => absurd hcon.1 (by omega)), if_pos rfl]
        rw [if_pos (show i < i + 1 ∧ m.testBit i = true from ⟨by omega, hb⟩)]
        rfl
      · rw [if_neg hik]
        by_cases hlt : i < k ∧ m.testBit i = true
        · rw [if_pos hlt, if_pos (show i < k + 1 ∧ m.testBit i = true from ⟨by omega, hlt.2⟩)]
          rfl
        · rw [if_neg hlt, if_neg (by
            rintro ⟨h1, h2⟩
            exact hlt ⟨by omega, h2⟩)]
          rfl
    · rw [if_neg hb]
      by_cases hlt : i < k ∧ m.testBit i = true
      · rw [if_pos hlt, if_pos (show i < k + 1 ∧ m.testBit i = true from ⟨by omega, hlt.2⟩)]
      · rw [if_neg hlt, if_neg (by
          rintro ⟨h1, h2⟩
          rcases Nat.lt_or_ge i k with h | h
          · exact hlt ⟨h, h2⟩
          · have hik : i = k := by omega
            rw [← hik] at hb
            rw [h2] at hb
            exact hb rfl)]

/-- No nonzero combination of the 16 basis masks vanishes. -/
theorem basisXor_ne_zero (m : Nat) (h0 : 0 < m) (hm : m < 65536) : basisXor 16 m ≠ 0 := by
  intro hz
  obtain ⟨i, hbit, _⟩ := Nat.exists_most_significant_bit (show m ≠ 0 by omega)
  have hi : i < 16 := by
    by_contra hge
    have h2 : m < 2 ^ i := by
      calc m < 65536 := hm
        _ = 2 ^ 16 := by norm_num
        _ ≤ 2 ^ i := Nat.pow_le_pow_right (by omega) (by omega)
    rw [Nat.testBit_lt_two_pow h2] at hbit
    exact absurd hbit (by decide)
  have h1 := parN_basisXor (dual i) 16 m
  rw [hz, Nat.and_zero, parN_zero, dualSum_extract i hi m 16 (le_refl 16),
    if_pos ⟨hi, hbit⟩] at h1
  exact absurd h1 (by decide)

theorem basisXor_linear (f : Nat) : ∀ x y,
    basisXor f (x ^^^ y) = basisXor f x ^^^ basisXor f y := by
  induction f with
  | zero =>
    intro x y
    show (0 : Nat) = 0 ^^^ 0
    rw [Nat.xor_zero]
  | succ k ih =>
    intro x y
    unfold basisXor
    rw [Nat.testBit_xor]
    cases hx : x.testBit k <;> cases hy : y.testBit k
    · rw [show (false.xor false) = false from rfl, if_neg (by simp), if_neg (by simp),
        if_neg (by simp), ih]
    · rw [show (false.xor true) = true from rfl, if_pos rfl, if_neg (by simp),
        if_pos rfl, ih, Nat.xor_assoc]
    · rw [show (true.xor false) = true from rfl, if_pos rfl, if_pos rfl,
        if_neg (by simp), ih, Nat.xor_assoc, Nat.xor_assoc,
        Nat.xor_comm (Base k) (basisXor k y)]
    · rw [show (true.xor true) = false from rfl, if_neg (by simp), if_pos rfl,
        if_pos rfl, ih]
      rw [Nat.xor_assoc, ← Nat.xor_assoc (Base k) (basisXor k y) (Base k),
        Nat.xor_comm (Base k) (basisXor k y), Nat.xor_assoc, Nat.xor_self, Nat.xor_zero]

theorem basisXor_inj (x y : Nat) (hx : x < 65536) (hy : y < 65536)
    (h : basisXor 16 x = basisXor 16 y) : x = y := by
  by_contra hne
  have hxy : x ^^^ y ≠ 0 := fun hz => hne (Nat.xor_eq_zero.mp hz)
  have hlt : x ^^^ y < 65536 := by
    have h16 : (65536 : Nat) = 2 ^ 16 := by norm_num
    rw [h16]
    exact Nat.xor_lt_two_pow (by omega) (by omega)
  have hz : basisXor 16 (x ^^^ y) = 0 := by
    rw [basisXor_linear, h, Nat.xor_self]
  exact basisXor_ne_zero (x ^^^ y) (by omega) hlt hz

end RS
